import Mathlib

/-!
Verification of the BigInt arbitrary-precision integer library
(src/BigInt.h, src/BigInt.cpp) against its natural-language specification.

The C++ class `BigInt` stores a magnitude as a vector of decimal digits,
least-significant first (`std::vector<int> digits`), plus a sign flag
(`bool negative`).  This file embeds the data model and the operations the
claims need as executable Lean definitions, translated from the source,
and proves (or refutes) each claim about them.

Machine integers: `size_t` is modelled as a natural number reduced modulo
2^64 where the source wraps; `long long` is modelled as an `Int` with the
two's-complement wraparound of `-LLONG_MIN` made explicit.
-/

/-! ## Definitions: shallow embedding of the source operations -/

/-- Value of a least-significant-first decimal digit list. -/
def val : List Nat → Nat
  | [] => 0
  | d :: ds => d + 10 * val ds

/-- Value of a most-significant-first decimal digit list. -/
def valM : List Nat → Nat
  | [] => 0
  | d :: ds => d * 10 ^ ds.length + valM ds

/-- All entries are decimal digits. -/
def ValidDigits (l : List Nat) : Prop := ∀ d ∈ l, d < 10

instance : DecidablePred ValidDigits := fun l =>
  inferInstanceAs (Decidable (∀ d ∈ l, d < 10))

/-- Digit expansion of a natural number, least-significant first; the empty
list for 0.  This is the shape of both the trailing-carry loop of
`operator+` and the digit loop of `BigInt(long long)`:
`while (num > 0) { digits.push_back(num % 10); num /= 10; }`.
The structural fuel makes the definition kernel-reducible; `fuel = n`
always suffices because the argument shrinks by a factor of 10. -/
def digitsOfNatF : Nat → Nat → List Nat
  | 0, _ => []
  | fuel + 1, n => if n = 0 then [] else n % 10 :: digitsOfNatF fuel (n / 10)

def digitsOfNat (n : Nat) : List Nat := digitsOfNatF n n

structure BigInt where
  digits : List Nat
  negative : Bool
  deriving DecidableEq, Repr

/-- Signed integer value denoted by a representation. -/
def BigInt.toInt (a : BigInt) : Int :=
  if a.negative then -(val a.digits : Int) else (val a.digits : Int)

/-- Representation invariant from the spec: digits are decimal, the list is
non-empty, there is no most-significant zero digit except in the canonical
zero form [0], and zero carries a false sign. -/
def Canonical (a : BigInt) : Prop :=
  ValidDigits a.digits ∧ a.digits ≠ [] ∧
    (a.digits.getLast? ≠ some 0 ∨ a.digits = [0]) ∧
    (a.digits = [0] → a.negative = false)

instance : DecidablePred Canonical := fun a => by
  unfold Canonical; infer_instance

/-- Source `BigInt::isZero`: digits.size() == 1 && digits[0] == 0. -/
def isZeroB (a : BigInt) : Bool :=
  decide (a.digits.length = 1 ∧ a.digits.headD 0 = 0)

/-- Source `BigInt::removeLeadingZeros`:
while (digits.size() > 1 && digits.back() == 0) digits.pop_back().
Stated on the most-significant-first reversal of the digit vector. -/
def stripMSD : List Nat → List Nat
  | [] => []
  | x :: xs => if x = 0 ∧ xs ≠ [] then stripMSD xs else x :: xs

def removeLeadingZeros (l : List Nat) : List Nat :=
  (stripMSD l.reverse).reverse

/-- Source `BigInt::normalize`: strip leading zeros, then force the sign
to non-negative when the remaining value is the single digit 0. -/
def normalizeB (a : BigInt) : BigInt :=
  let d := removeLeadingZeros a.digits
  { digits := d
    negative := if d.length = 1 ∧ d.headD 0 = 0 then false else a.negative }

/-- Source `BigInt::BigInt(long long num)`.  The C++ negation
`num = -num` overflows for LLONG_MIN = -2^63 (undefined behavior); on a
two's-complement machine it yields LLONG_MIN again, so the subsequent
`while (num > 0)` loop never runs and the digit vector stays empty.  The
model makes that wraparound explicit. -/
def fromLL (n : Int) : BigInt :=
  let neg : Bool := decide (n < 0)
  let m : Int := if n = -(2 ^ 63 : Int) then n else if n < 0 then -n else n
  if m = 0 then { digits := [0], negative := neg }
  else { digits := digitsOfNat m.toNat, negative := neg }

/-- Source static constant `BigInt::ZERO = BigInt(0)`. -/
def zeroB : BigInt := fromLL 0

/-- Source static constant `BigInt::ONE = BigInt(1)`. -/
def oneB : BigInt := fromLL 1

/-- Source static constant `BigInt::TWO = BigInt(2)`. -/
def twoB : BigInt := fromLL 2

/-- Source `BigInt::compareMagnitude` digit loop, which runs only when
both digit vectors have the same length, from most significant down. -/
def cmpMSD : List Nat → List Nat → Int
  | x :: xs, y :: ys => if x ≠ y then (if x < y then -1 else 1) else cmpMSD xs ys
  | _, _ => 0

/-- Source `BigInt::compareMagnitude`: compare lengths first, then digits
from most significant to least significant. -/
def compareMagnitude (a b : BigInt) : Int :=
  if a.digits.length ≠ b.digits.length then
    (if a.digits.length < b.digits.length then -1 else 1)
  else cmpMSD a.digits.reverse b.digits.reverse

/-- Source `BigInt::operator==`: structural comparison of sign and digits. -/
def beqB (a b : BigInt) : Bool :=
  decide (a.negative = b.negative) && decide (a.digits = b.digits)

/-- Source `BigInt::operator<`. -/
def ltB (a b : BigInt) : Bool :=
  if a.negative ≠ b.negative then a.negative
  else if a.negative then decide (compareMagnitude a b > 0)
  else decide (compareMagnitude a b < 0)

/-- Source `BigInt::operator<=`: a < b || a == b. -/
def leB (a b : BigInt) : Bool := ltB a b || beqB a b

/-- Source `BigInt::operator>`: !(a <= b). -/
def gtB (a b : BigInt) : Bool := !(leB a b)

/-- Source `BigInt::operator>=`: !(a < b). -/
def geB (a b : BigInt) : Bool := !(ltB a b)

/-- Source unary `BigInt::operator-`: copy and flip the sign flag.  Note:
no normalization, so negating zero sets the sign flag on a zero value. -/
def negB (a : BigInt) : BigInt := { a with negative := !a.negative }

/-- Source `BigInt::isNegative`: negative && !isZero(). -/
def isNegativeB (a : BigInt) : Bool := a.negative && !(isZeroB a)

/-- Source non-member `abs`: isNegative() ? -num : num. -/
def absB (a : BigInt) : BigInt := if isNegativeB a then negB a else a

/-- Digit loop of source `BigInt::operator+` (the equal-signs branch):
for (i = 0; i < maxSize || carry; ++i) { sum = carry + digits; push sum % 10;
carry = sum / 10; }.  Once both inputs are exhausted the loop degenerates
to the digit expansion of the remaining carry. -/
def addTail : List Nat → Nat → List Nat
  | [], c => digitsOfNat c
  | y :: ys, c => (y + c) % 10 :: addTail ys ((y + c) / 10)

def addLoop : List Nat → List Nat → Nat → List Nat
  | [], ys, c => addTail ys c
  | x :: xs, [], c => (x + c) % 10 :: addLoop xs [] ((x + c) / 10)
  | x :: xs, y :: ys, c => (x + y + c) % 10 :: addLoop xs ys ((x + y + c) / 10)

/-- Equal-signs branch of source `BigInt::operator+`: digit-wise sum,
result carries the common sign; `operator+` does not normalize here. -/
def addSame (a b : BigInt) : BigInt :=
  { digits := addLoop a.digits b.digits 0, negative := a.negative }

/-- Digit loop of source `BigInt::operator-` (the final branch, where both
operands are non-negative and the left has the larger magnitude): iterate
over the left operand's digits, subtracting with borrow. -/
def subLoopD : List Nat → List Nat → Nat → List Nat
  | [], _, _ => []
  | x :: xs, [], b =>
      if (x : Int) - b < 0 then ((x : Int) - b + 10).toNat :: subLoopD xs [] 1
      else ((x : Int) - b).toNat :: subLoopD xs [] 0
  | x :: xs, y :: ys, b =>
      if (x : Int) - b - y < 0 then
        ((x : Int) - b - y + 10).toNat :: subLoopD xs ys 1
      else ((x : Int) - b - y).toNat :: subLoopD xs ys 0

/-- Tail of source `BigInt::operator-`: the freshly constructed result
(sign false) receives the borrow-loop digits and is normalized. -/
def subCore (a b : BigInt) : BigInt :=
  normalizeB { digits := subLoopD a.digits b.digits 0, negative := false }

/-- Source `BigInt::operator-`.  Mixed signs reduce to the equal-signs
addition branch (with a flip), both-negative swaps and negates, a
non-negative left smaller than the right negates the swapped difference,
and otherwise the borrow loop runs directly.  The C++ recursion nests at
most three calls deep (both-negative goes to both-non-negative, which may
swap once and then terminate), so a structural fuel of 3 is exact; the
fuel-exhausted value is never reached. -/
def subFuel : Nat → BigInt → BigInt → BigInt
  | 0, _, _ => { digits := [0], negative := false }
  | fuel + 1, a, b =>
    if a.negative ≠ b.negative then
      if a.negative then negB (addSame (negB a) b)
      else addSame a (negB b)
    else if a.negative then subFuel fuel (negB b) (negB a)
    else if ltB a b then negB (subFuel fuel b a)
    else subCore a b

def subB (a b : BigInt) : BigInt := subFuel 3 a b

/-- Source `BigInt::operator+`: differing signs delegate to subtraction,
equal signs run the digit-sum loop. -/
def addB (a b : BigInt) : BigInt :=
  if a.negative ≠ b.negative then
    if a.negative then subB b (negB a) else subB a (negB b)
  else addSame a b

/-- Tail phase of the inner loop of `schoolbookMultiply` once `j` passes
the right operand's digits: while carry remains, add it into the buffer.
In C++ the pre-sized buffer is written in place; writes never pass the
buffer end (the accumulated value always fits in n+m digits), and the
model appends carry digits if the list runs out, which changes nothing on
reachable states. -/
def addCarry : List Nat → Nat → List Nat
  | [], c => digitsOfNat c
  | b :: buf, c =>
      if c = 0 then b :: buf
      else (b + c) % 10 :: addCarry buf ((b + c) / 10)

/-- Inner loop of `schoolbookMultiply` for one row digit xi, acting on the
buffer suffix starting at position i:
for (j = 0; j < other.digits.size() || carry; ++j) { product =
result.digits[i+j] + carry + xi * other.digits[j]; write product % 10;
carry = product / 10; }. -/
def innerLoop (xi : Nat) : List Nat → List Nat → Nat → List Nat
  | [], buf, c => addCarry buf c
  | y :: ys, buf, c =>
      (buf.headD 0 + c + xi * y) % 10 ::
        innerLoop xi ys buf.tail ((buf.headD 0 + c + xi * y) / 10)

/-- Outer loop of `schoolbookMultiply`: row i leaves buffer positions
below i untouched and updates the suffix from position i. -/
def outerLoop (ys : List Nat) : List Nat → List Nat → List Nat
  | [], buf => buf
  | x :: xs, buf =>
      (innerLoop x ys buf 0).headD 0 ::
        outerLoop ys xs (innerLoop x ys buf 0).tail

/-- Source `BigInt::schoolbookMultiply`: fresh result, buffer resized to
n+m zeros, row loop, then normalize (sign stays false here). -/
def schoolbookMultiply (a b : BigInt) : BigInt :=
  normalizeB
    { digits :=
        outerLoop b.digits a.digits
          (List.replicate (a.digits.length + b.digits.length) 0)
      negative := false }

/-- Source `BigInt::operator*`: zero short-circuit, schoolbook product,
sign = XOR of operand signs, normalize. -/
def mulB (a b : BigInt) : BigInt :=
  if isZeroB a || isZeroB b then zeroB
  else
    normalizeB
      { digits := (schoolbookMultiply a b).digits
        negative := decide (a.negative ≠ b.negative) }

/-- Error kinds of the C++ exception taxonomy that the claims exercise;
`outOfBoundsRead` marks an out-of-bounds `std::string` access, which in
C++ is undefined behavior, not an exception. -/
inductive BigIntError where
  | divisionByZero
  | invalidInput
  | outOfRange
  | outOfBoundsRead
  deriving DecidableEq, Repr

/-- Digit-search loop of `divideWithRemainder`:
while (remainder >= divisorAbs) { remainder -= divisorAbs; digit++; }.
Structural fuel; val(remainder)+1 steps always suffice because each
subtraction removes at least 1 (the caller guarantees a nonzero divisor). -/
def repSub (dAbs : BigInt) : Nat → BigInt → BigInt × Nat
  | 0, r => (r, 0)
  | fuel + 1, r =>
      if geB r dAbs then
        let p := repSub dAbs fuel (subB r dAbs)
        (p.1, p.2 + 1)
      else (r, 0)

/-- Column loop of `divideWithRemainder`, processing dividend digits from
most significant to least significant: prepend the digit to the running
remainder, normalize, count subtractions, prepend the count to the
quotient digits. -/
def divLoop (dAbs : BigInt) : List Nat → BigInt × BigInt → BigInt × BigInt
  | [], qr => qr
  | d :: rest, qr =>
      let r1 := normalizeB { digits := d :: qr.2.digits, negative := qr.2.negative }
      let p := repSub dAbs (val r1.digits + 1) r1
      divLoop dAbs rest
        ({ digits := p.2 :: qr.1.digits, negative := qr.1.negative }, p.1)

/-- Source `BigInt::divideWithRemainder` (static): zero dividend short
circuit, then long division on absolute values; the quotient is
normalized at the end, the remainder was normalized inside the loop. -/
def divideWithRemainder (dividend divisor : BigInt) : BigInt × BigInt :=
  if isZeroB dividend then (zeroB, zeroB)
  else
    let p := divLoop (absB divisor) (absB dividend).digits.reverse
      ({ digits := [0], negative := false }, { digits := [0], negative := false })
    (normalizeB p.1, p.2)

/-- Tail of source `BigInt::operator/` after the zero check: quotient sign
= XOR of operand signs, then normalize. -/
def quotB (a b : BigInt) : BigInt :=
  normalizeB
    { digits := (divideWithRemainder a b).1.digits
      negative := decide (a.negative ≠ b.negative) }

/-- Tail of source `BigInt::operator%` after the zero check: remainder
sign = dividend sign, then normalize. -/
def remB (a b : BigInt) : BigInt :=
  normalizeB
    { digits := (divideWithRemainder a b).2.digits
      negative := a.negative }

/-- Source `BigInt::operator/`: throws DivisionByZero on a zero divisor. -/
def divB (a b : BigInt) : Except BigIntError BigInt :=
  if isZeroB b then .error .divisionByZero else .ok (quotB a b)

/-- Source `BigInt::operator%`: throws DivisionByZero on a zero divisor. -/
def modB (a b : BigInt) : Except BigIntError BigInt :=
  if isZeroB b then .error .divisionByZero else .ok (remB a b)

instance {e r : Type} [DecidableEq e] [DecidableEq r] :
    DecidableEq (Except e r) := fun a b =>
  match a, b with
  | .error e1, .error e2 =>
    decidable_of_iff (e1 = e2) ⟨fun h => by rw [h], fun h => by injection h⟩
  | .ok v1, .ok v2 =>
    decidable_of_iff (v1 = v2) ⟨fun h => by rw [h], fun h => by injection h⟩
  | .error _, .ok _ => isFalse (fun h => Except.noConfusion h)
  | .ok _, .error _ => isFalse (fun h => Except.noConfusion h)

/-- Source `BigInt::toString`: "0" for zero, else optional leading minus
followed by the digits from most significant to least significant. -/
def toStringB (a : BigInt) : List Char :=
  if isZeroB a then ['0']
  else
    (if a.negative then ['-'] else []) ++
      a.digits.reverse.map (fun d => Char.ofNat (48 + d))

/-- LLONG_MAX for the 64-bit `long long` of the reference platform. -/
def llongMax : Int := 2 ^ 63 - 1

/-- LLONG_MIN for the 64-bit `long long` of the reference platform. -/
def llongMin : Int := -(2 ^ 63)

/-- Source `BigInt::toLongLong`: range-check against BigInt(LLONG_MAX)
and BigInt(LLONG_MIN) — the latter is the corrupted empty-digit value the
long long constructor produces — then rebuild the value from the most
significant digit down and apply the sign.  The C++ arithmetic is 64-bit;
on every input that passes the range check the loop cannot overflow, so
exact integers model it faithfully. -/
def toLongLong (a : BigInt) : Except BigIntError Int :=
  if gtB a (fromLL llongMax) || ltB a (fromLL llongMin) then
    .error .outOfRange
  else
    .ok (if a.negative then
      -(a.digits.reverse.foldl (fun acc d => acc * 10 + (d : Int)) 0)
    else a.digits.reverse.foldl (fun acc d => acc * 10 + (d : Int)) 0)

/-- One step of the parse loop index: `--i` on a `size_t`, wrapping from
0 to 2^64 - 1. -/
def decSizeT (i : Nat) : Nat := if i = 0 then 2 ^ 64 - 1 else i - 1

/-- Digit loop of source `BigInt::BigInt(const std::string&)`:
for (size_t i = str.length() - 1; i >= start; --i).  The index is a
`size_t`; when `start` is 0 the condition `i >= start` never fails, and
after the i = 0 iteration the decrement wraps around to 2^64 - 1, so the
next access `str[i]` reads out of bounds (undefined behavior), reported
here as `outOfBoundsRead`.  Structural fuel; length + 2 iterations always
suffice to reach one of the outcomes. -/
def parseLoop (s : List Char) (start : Nat) :
    Nat → Nat → List Nat → Except BigIntError (List Nat)
  | 0, _, acc => .ok acc
  | fuel + 1, i, acc =>
    if i < start then .ok acc
    else if h : i < s.length then
      if (s.get ⟨i, h⟩).isDigit then
        parseLoop s start fuel (decSizeT i)
          (acc ++ [(s.get ⟨i, h⟩).toNat - 48])
      else .error .invalidInput
    else .error .outOfBoundsRead

/-- Source `BigInt::BigInt(const std::string& str)`: empty check, optional
sign, sign-only check, then the digit loop from the last character down,
and a final normalize. -/
def parseB (s : List Char) : Except BigIntError BigInt :=
  if s.length = 0 then .error .invalidInput
  else
    let neg : Bool := decide (s.headD ' ' = '-')
    let start : Nat := if s.headD ' ' = '-' || s.headD ' ' = '+' then 1 else 0
    if s.length ≤ start then .error .invalidInput
    else
      match parseLoop s start (s.length + 2) (s.length - 1) [] with
      | .error e => .error e
      | .ok ds => .ok (normalizeB { digits := ds, negative := neg })

/-- Source `BigInt::pow` binary-exponentiation loop:
while (!e.isZero()) { if (e % TWO == ONE) result = result * b;
b = b * b; e = e / TWO; }.  Structural fuel; val(e) + 1 iterations
suffice because e at least halves every round. -/
def powLoop : Nat → BigInt → BigInt → BigInt → BigInt
  | 0, result, _, _ => result
  | fuel + 1, result, b, e =>
    if isZeroB e then result
    else
      powLoop fuel
        (if beqB (remB e twoB) oneB then mulB result b else result)
        (mulB b b) (quotB e twoB)

/-- Source `BigInt::pow`: negative exponent fails, zero exponent answers
ONE before any multiplication, otherwise the square-and-multiply loop. -/
def powB (base exponent : BigInt) : Except BigIntError BigInt :=
  if ltB exponent zeroB then .error .invalidInput
  else if isZeroB exponent then .ok oneB
  else .ok (powLoop (val exponent.digits + 1) oneB base exponent)

/-- Source `BigInt::operator^`: delegates to pow. -/
def hatB (a b : BigInt) : Except BigIntError BigInt := powB a b

/-- Source `BigInt::sqrt` binary-search loop:
while (left <= right) { mid = (left + right) / TWO; square = mid * mid;
if (square <= n) { result = mid; left = mid + ONE; }
else right = mid - ONE; }.  Structural fuel; the interval shrinks every
round, so val(n) + 2 iterations suffice. -/
def sqrtLoop (n : BigInt) : Nat → BigInt → BigInt → BigInt → BigInt
  | 0, _, _, result => result
  | fuel + 1, left, right, result =>
    if leB left right then
      if leB (mulB (quotB (addB left right) twoB) (quotB (addB left right) twoB)) n then
        sqrtLoop n fuel (addB (quotB (addB left right) twoB) oneB) right
          (quotB (addB left right) twoB)
      else
        sqrtLoop n fuel left (subB (quotB (addB left right) twoB) oneB) result
    else result

/-- Source `BigInt::sqrt`: negative input fails, n ≤ 1 returns n,
otherwise binary search over [1, n] starting from result = 1. -/
def sqrtB (n : BigInt) : Except BigIntError BigInt :=
  if ltB n zeroB then .error .invalidInput
  else if leB n oneB then .ok n
  else .ok (sqrtLoop n (val n.digits + 2) oneB n oneB)

/-- Divide-out loop of `primeFactorization`:
while (num % p == ZERO) { num = num / p; count++; }.  Structural fuel;
val(num) + 1 iterations suffice for p ≥ 2. -/
def divOutLoop (p : BigInt) : Nat → BigInt → BigInt × Nat
  | 0, num => (num, 0)
  | fuel + 1, num =>
    if beqB (remB num p) zeroB then
      let q := divOutLoop p fuel (quotB num p)
      (q.1, q.2 + 1)
    else (num, 0)

/-- Odd-divisor loop of `primeFactorization`: i runs 3, 5, 7, ... while
i <= sqrtNum (the bound computed once, before the loop), dividing out
each i completely.  Structural fuel; val(sqrtNum) + 2 iterations
suffice since i increases by 2 every round. -/
def oddLoop (sqrtNum : BigInt) :
    Nat → BigInt → BigInt → List (BigInt × Nat) × BigInt
  | 0, _, num => ([], num)
  | fuel + 1, i, num =>
    if leB i sqrtNum then
      let d := divOutLoop i (val num.digits + 1) num
      let rest := oddLoop sqrtNum fuel (addB i twoB) d.1
      ((if d.2 > 0 then (i, d.2) :: rest.1 else rest.1), rest.2)
    else ([], num)

/-- Total core of source `BigInt::sqrt` for use inside
`primeFactorization`, where the argument is the non-negative cofactor and
the negative-input throw is unreachable. -/
def sqrtCore (n : BigInt) : BigInt :=
  if leB n oneB then n
  else sqrtLoop n (val n.digits + 2) oneB n oneB

/-- Source `BigInt::primeFactorization`: absolute value, trivial inputs
give the empty list, factor out 2, then odd trial divisors up to the
square root computed once from the cofactor after the 2-phase, residual
cofactor appended last when it exceeds 1. -/
def primeFactorizationB (n : BigInt) : List (BigInt × Nat) :=
  if leB (absB n) oneB then []
  else
    let d2 := divOutLoop twoB (val (absB n).digits + 1) (absB n)
    let sqrtNum := sqrtCore d2.1
    let rest := oddLoop sqrtNum (val sqrtNum.digits + 2) (fromLL 3) d2.1
    (if d2.2 > 0 then [(twoB, d2.2)] else []) ++ rest.1 ++
      (if gtB rest.2 oneB then [(rest.2, 1)] else [])

/-- Nat-level meaning of the divide-out loop: repeatedly divide m by p
while p divides it, returning the cofactor and the multiplicity. -/
def divOutN (p : Nat) : Nat → Nat × Nat := fun m =>
  if h : 2 ≤ p ∧ 0 < m ∧ m % p = 0 then
    let q := divOutN p (m / p)
    (q.1, q.2 + 1)
  else (m, 0)
  termination_by m => m
  decreasing_by exact Nat.div_lt_self h.2.1 (by omega)

/-- Nat-level meaning of the odd-divisor loop. -/
def oddPhase (s : Nat) : Nat → Nat → List (Nat × Nat) × Nat := fun i m =>
  if i ≤ s then
    let d := divOutN i m
    let rest := oddPhase s (i + 2) d.1
    ((if 0 < d.2 then (i, d.2) :: rest.1 else rest.1), rest.2)
  else ([], m)
  termination_by i _ => s + 1 - i
  decreasing_by omega

/-- No divisor d with 2 ≤ d < i divides m: the state of the trial-division
scan after all candidates below i have been divided out. -/
def NoSmallDiv (i m : Nat) : Prop := ∀ d, 2 ≤ d → d < i → ¬ d ∣ m

/-! ## Theorems -/

theorem digitsOfNatF_zero (f : Nat) : digitsOfNatF f 0 = [] := by
  cases f with
  | zero => rfl
  | succ f => rw [digitsOfNatF, if_pos rfl]

theorem digitsOfNatF_congr : ∀ (f1 : Nat) (f2 n : Nat), n ≤ f1 → n ≤ f2 →
    digitsOfNatF f1 n = digitsOfNatF f2 n := by
  intro f1
  induction f1 with
  | zero =>
    intro f2 n h1 _
    have : n = 0 := Nat.le_zero.mp h1
    subst this
    rw [digitsOfNatF_zero, digitsOfNatF_zero]
  | succ f1 ih =>
    intro f2 n h1 h2
    by_cases hn : n = 0
    · subst hn
      rw [digitsOfNatF_zero, digitsOfNatF_zero]
    · cases f2 with
      | zero => omega
      | succ f2 =>
        rw [digitsOfNatF, digitsOfNatF, if_neg hn, if_neg hn]
        have hlt : n / 10 < n := Nat.div_lt_self (Nat.pos_of_ne_zero hn) (by omega)
        exact congrArg _ (ih f2 (n / 10) (by omega) (by omega))

/-- Unfolding equation matching the C++ loop step. -/
theorem digitsOfNat_eq (n : Nat) :
    digitsOfNat n = if n = 0 then [] else n % 10 :: digitsOfNat (n / 10) := by
  by_cases hn : n = 0
  · subst hn
    rw [if_pos rfl]
    rfl
  · rw [if_neg hn]
    obtain ⟨m, hm⟩ : ∃ m, n = m + 1 := ⟨n - 1, by omega⟩
    subst hm
    show digitsOfNatF (m + 1) (m + 1) = _
    rw [digitsOfNatF, if_neg hn]
    exact congrArg _ (digitsOfNatF_congr m _ ((m + 1) / 10) (by omega) le_rfl)

theorem val_digitsOfNat (n : Nat) : val (digitsOfNat n) = n := by
  induction n using Nat.strong_induction_on with
  | _ n ih =>
    rw [digitsOfNat_eq]
    by_cases h : n = 0
    · simp [h, val]
    · simp only [h, if_false, val]
      rw [ih (n / 10) (Nat.div_lt_self (Nat.pos_of_ne_zero h) (by omega))]
      omega

theorem validDigits_digitsOfNat (n : Nat) : ValidDigits (digitsOfNat n) := by
  induction n using Nat.strong_induction_on with
  | _ n ih =>
    rw [digitsOfNat_eq]
    by_cases h : n = 0
    · simp [h, ValidDigits]
    · simp only [h, if_false]
      intro d hd
      rcases List.mem_cons.mp hd with h1 | h2
      · subst h1; omega
      · exact ih (n / 10) (Nat.div_lt_self (Nat.pos_of_ne_zero h) (by omega)) d h2

theorem digitsOfNat_ne_nil {n : Nat} (h : n ≠ 0) : digitsOfNat n ≠ [] := by
  rw [digitsOfNat_eq]; simp [h]

/-- The most significant digit produced by `digitsOfNat` is nonzero. -/
theorem digitsOfNat_getLast {n : Nat} (h : n ≠ 0) :
    (digitsOfNat n).getLast? ≠ some 0 := by
  induction n using Nat.strong_induction_on with
  | _ n ih =>
    rw [digitsOfNat_eq]
    simp only [h, if_false]
    by_cases h10 : n / 10 = 0
    · rw [digitsOfNat_eq, if_pos h10]
      simp only [List.getLast?_singleton]
      intro hc
      have : n % 10 = 0 := by exact Option.some_injective _ hc
      omega
    · have hne : digitsOfNat (n / 10) ≠ [] := digitsOfNat_ne_nil h10
      have h1 := ih (n / 10) (Nat.div_lt_self (Nat.pos_of_ne_zero h) (by omega)) h10
      rw [List.getLast?_eq_getLast_of_ne_nil hne] at h1
      rw [List.getLast?_eq_getLast_of_ne_nil (List.cons_ne_nil _ _),
        List.getLast_cons hne]
      exact h1

theorem val_append (l1 l2 : List Nat) :
    val (l1 ++ l2) = val l1 + 10 ^ l1.length * val l2 := by
  induction l1 with
  | nil => simp [val]
  | cons d ds ih => simp [val, ih, Nat.pow_succ]; ring

theorem val_lt_pow_length {l : List Nat} (h : ValidDigits l) :
    val l < 10 ^ l.length := by
  induction l with
  | nil => simp [val]
  | cons d ds ih =>
    have hd : d < 10 := h d (List.mem_cons_self d ds)
    have hds : ValidDigits ds := fun x hx => h x (List.mem_cons_of_mem d hx)
    have := ih hds
    simp only [val, List.length_cons, Nat.pow_succ]
    omega

theorem valM_append (l1 l2 : List Nat) :
    valM (l1 ++ l2) = valM l1 * 10 ^ l2.length + valM l2 := by
  induction l1 with
  | nil => simp [valM]
  | cons d ds ih =>
    simp [valM, ih, List.length_append, Nat.pow_add]
    ring

theorem val_eq_valM_reverse (l : List Nat) : val l = valM l.reverse := by
  induction l with
  | nil => simp [val, valM]
  | cons d ds ih =>
    simp only [val, List.reverse_cons, valM_append, ih, valM, List.length_reverse]
    simp [valM]
    ring

theorem valM_lt_pow_length {l : List Nat} (h : ValidDigits l) :
    valM l < 10 ^ l.length := by
  have h2 : ValidDigits l.reverse := by
    intro d hd; exact h d (List.mem_reverse.mp hd)
  have := val_lt_pow_length h2
  rw [val_eq_valM_reverse] at this
  simpa using this

/-- Decompose the value of a nonempty digit list around its most
significant digit. -/
theorem val_getLast_decomp {l : List Nat} (h : l ≠ []) :
    val l = val l.dropLast + l.getLast h * 10 ^ (l.length - 1) := by
  conv_lhs => rw [← List.dropLast_append_getLast h]
  rw [val_append]
  simp [val, List.length_dropLast, Nat.mul_comm]

/-- A nonempty valid digit list with nonzero most significant digit has
value at least 10^(length-1). -/
theorem pow_le_val_of_getLast_ne_zero {l : List Nat} (hne : l ≠ [])
    (hlast : l.getLast hne ≠ 0) :
    10 ^ (l.length - 1) ≤ val l := by
  rw [val_getLast_decomp hne]
  have h1 : 1 ≤ l.getLast hne := Nat.one_le_iff_ne_zero.mpr hlast
  have h2 : 10 ^ (l.length - 1) ≤ l.getLast hne * 10 ^ (l.length - 1) := by
    calc 10 ^ (l.length - 1) = 1 * 10 ^ (l.length - 1) := (one_mul _).symm
    _ ≤ l.getLast hne * 10 ^ (l.length - 1) := Nat.mul_le_mul_right _ h1
  omega

/-- If the most significant digit is zero, the value is below
10^(length-1). -/
theorem val_lt_pow_of_getLast_eq_zero {l : List Nat} (hv : ValidDigits l)
    (hne : l ≠ []) (hlast : l.getLast hne = 0) :
    val l < 10 ^ (l.length - 1) := by
  rw [val_getLast_decomp hne, hlast]
  simp only [Nat.zero_mul, Nat.add_zero]
  have : ValidDigits l.dropLast := by
    intro d hd; exact hv d (List.mem_of_mem_dropLast hd)
  have := val_lt_pow_length this
  simpa [List.length_dropLast] using this

theorem getLast?_cons_ne_nil {a : Nat} {l : List Nat} (h : l ≠ []) :
    (a :: l).getLast? = l.getLast? := by
  rw [List.getLast?_eq_getLast_of_ne_nil h,
    List.getLast?_eq_getLast_of_ne_nil (List.cons_ne_nil a l),
    List.getLast_cons h]

theorem isZeroB_iff {a : BigInt} : isZeroB a = true ↔ a.digits = [0] := by
  unfold isZeroB
  rcases a with ⟨digits, neg⟩
  match digits with
  | [] => simp
  | [d] => simp [List.headD]
  | d :: e :: t => simp [List.headD]

theorem valM_stripMSD (l : List Nat) : valM (stripMSD l) = valM l := by
  induction l with
  | nil => rfl
  | cons x xs ih =>
    rw [stripMSD]
    by_cases h : x = 0 ∧ xs ≠ []
    · rw [if_pos h, ih]
      simp [valM, h.1]
    · rw [if_neg h]

theorem stripMSD_ne_nil {l : List Nat} (h : l ≠ []) : stripMSD l ≠ [] := by
  induction l with
  | nil => exact absurd rfl h
  | cons x xs ih =>
    rw [stripMSD]
    by_cases hc : x = 0 ∧ xs ≠ []
    · rw [if_pos hc]; exact ih hc.2
    · rw [if_neg hc]; exact List.cons_ne_nil x xs

theorem stripMSD_head {l : List Nat} (h : l ≠ []) :
    (stripMSD l).head? ≠ some 0 ∨ stripMSD l = [0] := by
  induction l with
  | nil => exact absurd rfl h
  | cons x xs ih =>
    rw [stripMSD]
    by_cases hc : x = 0 ∧ xs ≠ []
    · rw [if_pos hc]; exact ih hc.2
    · rw [if_neg hc]
      by_cases hx : x = 0
      · subst hx
        have : xs = [] := by
          by_contra hxs
          exact hc ⟨rfl, hxs⟩
        right; rw [this]
      · left; simp [hx]

theorem stripMSD_sublist (l : List Nat) : (stripMSD l).Sublist l := by
  induction l with
  | nil => exact List.Sublist.refl []
  | cons x xs ih =>
    rw [stripMSD]
    by_cases hc : x = 0 ∧ xs ≠ []
    · rw [if_pos hc]; exact ih.trans (List.sublist_cons_self x xs)
    · rw [if_neg hc]

theorem val_removeLeadingZeros (l : List Nat) :
    val (removeLeadingZeros l) = val l := by
  unfold removeLeadingZeros
  rw [val_eq_valM_reverse, List.reverse_reverse, valM_stripMSD,
    ← val_eq_valM_reverse]

theorem removeLeadingZeros_ne_nil {l : List Nat} (h : l ≠ []) :
    removeLeadingZeros l ≠ [] := by
  unfold removeLeadingZeros
  intro hc
  have : stripMSD l.reverse = [] := by
    have := congrArg List.reverse hc
    simpa using this
  exact stripMSD_ne_nil (by simpa using h) this

theorem removeLeadingZeros_getLast {l : List Nat} (h : l ≠ []) :
    (removeLeadingZeros l).getLast? ≠ some 0 ∨ removeLeadingZeros l = [0] := by
  unfold removeLeadingZeros
  have hrev : l.reverse ≠ [] := by simpa using h
  rcases stripMSD_head hrev with h1 | h1
  · left
    rwa [List.getLast?_reverse]
  · right; rw [h1]; rfl

theorem validDigits_removeLeadingZeros {l : List Nat} (h : ValidDigits l) :
    ValidDigits (removeLeadingZeros l) := by
  intro d hd
  apply h
  unfold removeLeadingZeros at hd
  rw [List.mem_reverse] at hd
  have := (stripMSD_sublist l.reverse).mem hd
  exact List.mem_reverse.mp this

/-- Stripping leading zeros of a valid list with value 0 yields [0]. -/
theorem removeLeadingZeros_eq_zero {l : List Nat} (hne : l ≠ [])
    (hv : val l = 0) : removeLeadingZeros l = [0] := by
  rcases removeLeadingZeros_getLast hne with h | h
  · exfalso
    have hne2 : removeLeadingZeros l ≠ [] := removeLeadingZeros_ne_nil hne
    rw [List.getLast?_eq_getLast_of_ne_nil hne2] at h
    have hlast : (removeLeadingZeros l).getLast hne2 ≠ 0 := by
      intro hc; exact h (by rw [hc])
    have := pow_le_val_of_getLast_ne_zero hne2 hlast
    rw [val_removeLeadingZeros, hv] at this
    exact absurd this (Nat.not_le.mpr (pow_pos (by norm_num) _))
  · exact h

theorem normalizeB_canonical {a : BigInt} (hv : ValidDigits a.digits)
    (hne : a.digits ≠ []) : Canonical (normalizeB a) := by
  unfold normalizeB Canonical
  simp only
  refine ⟨validDigits_removeLeadingZeros hv, removeLeadingZeros_ne_nil hne,
    removeLeadingZeros_getLast hne, ?_⟩
  intro h0
  rw [if_pos]
  rw [h0]
  exact ⟨rfl, rfl⟩

theorem normalizeB_digits (a : BigInt) :
    (normalizeB a).digits = removeLeadingZeros a.digits := rfl

theorem normalizeB_val (a : BigInt) :
    val (normalizeB a).digits = val a.digits := val_removeLeadingZeros a.digits

theorem normalizeB_negative_of_val_ne {a : BigInt} (hne : a.digits ≠ [])
    (h : val a.digits ≠ 0) : (normalizeB a).negative = a.negative := by
  unfold normalizeB
  simp only
  rw [if_neg]
  intro ⟨h1, h2⟩
  have h3 : removeLeadingZeros a.digits = [0] := by
    rcases hl : removeLeadingZeros a.digits with _ | ⟨d, t⟩
    · exact absurd hl (removeLeadingZeros_ne_nil hne)
    · rw [hl] at h1 h2
      simp at h1 h2
      rw [h1, h2]
  have := val_removeLeadingZeros a.digits
  rw [h3] at this
  simp [val] at this
  exact h (this.symm)

theorem toInt_normalizeB (a : BigInt) :
    (normalizeB a).toInt = a.toInt := by
  by_cases hne : a.digits = []
  · unfold BigInt.toInt normalizeB removeLeadingZeros
    rw [hne]
    simp [stripMSD, val]
  by_cases h : val a.digits = 0
  · unfold BigInt.toInt
    rw [normalizeB_val, h]
    simp
  · unfold BigInt.toInt
    rw [normalizeB_val, normalizeB_negative_of_val_ne hne h]

theorem canonical_val_zero {a : BigInt} (h : Canonical a) :
    val a.digits = 0 ↔ a.digits = [0] := by
  constructor
  · intro hv
    rcases h.2.2.1 with hl | hl
    · exfalso
      have hne := h.2.1
      rw [List.getLast?_eq_getLast_of_ne_nil hne] at hl
      have hlast : a.digits.getLast hne ≠ 0 := fun hc => hl (by rw [hc])
      have := pow_le_val_of_getLast_ne_zero hne hlast
      rw [hv] at this
      exact absurd this (Nat.not_le.mpr (pow_pos (by norm_num) _))
    · exact hl
  · intro hd; rw [hd]; rfl

theorem canonical_toInt_natAbs (a : BigInt) :
    a.toInt.natAbs = val a.digits := by
  unfold BigInt.toInt
  by_cases h : a.negative <;> simp [h]

theorem canonical_toInt_neg_iff {a : BigInt} (h : Canonical a) :
    a.toInt < 0 ↔ a.negative = true := by
  cases hb : a.negative with
  | false =>
    unfold BigInt.toInt
    rw [hb, if_neg (by simp)]
    constructor
    · intro hc
      exact absurd hc (Int.not_lt.mpr (Int.natCast_nonneg _))
    · intro hc; exact Bool.noConfusion hc
  | true =>
    unfold BigInt.toInt
    rw [hb, if_pos rfl]
    have hnz : a.digits ≠ [0] := by
      intro hc
      have h2 := h.2.2.2 hc
      rw [h2] at hb
      exact Bool.noConfusion hb
    have hv : val a.digits ≠ 0 := fun hc => hnz ((canonical_val_zero h).mp hc)
    constructor
    · intro _; rfl
    · intro _; omega

theorem canonical_toInt_zero_iff {a : BigInt} (h : Canonical a) :
    a.toInt = 0 ↔ a.digits = [0] := by
  rw [← canonical_val_zero h]
  unfold BigInt.toInt
  by_cases hn : a.negative <;> simp [hn]

theorem canonical_toInt_nonneg_flag {a : BigInt} (h : Canonical a)
    (hge : 0 ≤ a.toInt) : a.negative = false := by
  by_cases hn : a.negative
  · have := (canonical_toInt_neg_iff h).mpr hn
    omega
  · exact Bool.not_eq_true _ |>.mp hn

/-- Injectivity of `val` on valid digit lists with no most-significant
zero digit (the empty list is allowed here and denotes 0). -/
theorem val_inj_aux : ∀ (l1 l2 : List Nat), ValidDigits l1 → ValidDigits l2 →
    (l1 = [] ∨ l1.getLast? ≠ some 0) → (l2 = [] ∨ l2.getLast? ≠ some 0) →
    val l1 = val l2 → l1 = l2 := by
  intro l1
  induction l1 with
  | nil =>
    intro l2 _ _ _ hg2 hval
    rcases hg2 with h | h
    · exact h.symm
    · by_cases hne : l2 = []
      · exact hne.symm
      · exfalso
        rw [List.getLast?_eq_getLast_of_ne_nil hne] at h
        have hlast : l2.getLast hne ≠ 0 := fun hc => h (by rw [hc])
        have hle := pow_le_val_of_getLast_ne_zero hne hlast
        have h0 : val l2 = 0 := by rw [← hval]; rfl
        rw [h0] at hle
        exact absurd hle (Nat.not_le.mpr (pow_pos (by norm_num) _))
  | cons d t ih =>
    intro l2 hv1 hv2 hg1 hg2 hval
    cases l2 with
    | nil =>
      exfalso
      rcases hg1 with h | h
      · exact List.noConfusion h
      · have hne : d :: t ≠ [] := List.cons_ne_nil d t
        rw [List.getLast?_eq_getLast_of_ne_nil hne] at h
        have hlast : (d :: t).getLast hne ≠ 0 := fun hc => h (by rw [hc])
        have hle := pow_le_val_of_getLast_ne_zero hne hlast
        have h0 : val (d :: t) = 0 := by rw [hval]; rfl
        rw [h0] at hle
        exact absurd hle (Nat.not_le.mpr (pow_pos (by norm_num) _))
    | cons e s =>
      have hd : d < 10 := hv1 d (List.mem_cons_self d t)
      have he : e < 10 := hv2 e (List.mem_cons_self e s)
      have hval' : d + 10 * val t = e + 10 * val s := hval
      have hde : d = e ∧ val t = val s := by omega
      have ht : t = s := by
        apply ih s (fun x hx => hv1 x (List.mem_cons_of_mem d hx))
          (fun x hx => hv2 x (List.mem_cons_of_mem e hx))
        · by_cases htn : t = []
          · exact Or.inl htn
          · right
            rw [← getLast?_cons_ne_nil (a := d) htn]
            rcases hg1 with h | h
            · exact List.noConfusion h
            · exact h
        · by_cases hsn : s = []
          · exact Or.inl hsn
          · right
            rw [← getLast?_cons_ne_nil (a := e) hsn]
            rcases hg2 with h | h
            · exact List.noConfusion h
            · exact h
        · exact hde.2
      rw [hde.1, ht]

/-- Canonical digit lists are determined by their value. -/
theorem canonical_digits_inj {a b : BigInt} (ha : Canonical a)
    (hb : Canonical b) (h : val a.digits = val b.digits) :
    a.digits = b.digits := by
  by_cases h0 : a.digits = [0]
  · have hv : val b.digits = 0 := by
      rw [← h, h0]; rfl
    rw [h0, (canonical_val_zero hb).mp hv]
  · have hb0 : b.digits ≠ [0] := by
      intro hc
      have hv : val a.digits = 0 := by rw [h, hc]; rfl
      exact h0 ((canonical_val_zero ha).mp hv)
    apply val_inj_aux _ _ ha.1 hb.1 _ _ h
    · right
      rcases ha.2.2.1 with hg | hg
      · exact hg
      · exact absurd hg h0
    · right
      rcases hb.2.2.1 with hg | hg
      · exact hg
      · exact absurd hg hb0

/-- Two canonical representations with the same value are equal. -/
theorem canonical_ext {a b : BigInt} (ha : Canonical a) (hb : Canonical b)
    (h : a.toInt = b.toInt) : a = b := by
  have hval : val a.digits = val b.digits := by
    have := congrArg Int.natAbs h
    rwa [canonical_toInt_natAbs, canonical_toInt_natAbs] at this
  have hdig : a.digits = b.digits := canonical_digits_inj ha hb hval
  have hneg : a.negative = b.negative := by
    by_cases h0 : a.digits = [0]
    · have hb0 : b.digits = [0] := by rw [← hdig]; exact h0
      rw [ha.2.2.2 h0, hb.2.2.2 hb0]
    · have h1 := canonical_toInt_neg_iff ha
      have h2 := canonical_toInt_neg_iff hb
      rw [h] at h1
      have h3 : (a.negative = true) ↔ (b.negative = true) := by
        rw [← h1, ← h2]
      cases hx : a.negative with
      | false =>
        cases hy : b.negative with
        | false => rfl
        | true => exfalso; rw [hx, hy] at h3; simp at h3
      | true =>
        cases hy : b.negative with
        | false => exfalso; rw [hx, hy] at h3; simp at h3
        | true => rfl
  cases a; cases b
  simp only at hdig hneg
  rw [hdig, hneg]

theorem valM_lt_of_msd_lt {x y : Nat} {xs ys : List Nat}
    (hlen : xs.length = ys.length) (hvx : ValidDigits xs) (hxy : x < y) :
    valM (x :: xs) < valM (y :: ys) := by
  simp only [valM, List.length_cons]
  rw [hlen]
  have hP : valM xs < 10 ^ ys.length := hlen ▸ valM_lt_pow_length hvx
  calc x * 10 ^ ys.length + valM xs < x * 10 ^ ys.length + 10 ^ ys.length := by
        omega
  _ = (x + 1) * 10 ^ ys.length := by ring
  _ ≤ y * 10 ^ ys.length := Nat.mul_le_mul_right _ (by omega)
  _ ≤ y * 10 ^ ys.length + valM ys := Nat.le_add_right _ _

/-- Trichotomy for the most-significant-first digit comparison loop on
equal-length valid digit lists. -/
theorem cmpMSD_spec : ∀ (xs ys : List Nat), xs.length = ys.length →
    ValidDigits xs → ValidDigits ys →
    (cmpMSD xs ys = -1 ∧ valM xs < valM ys) ∨
    (cmpMSD xs ys = 0 ∧ xs = ys) ∨
    (cmpMSD xs ys = 1 ∧ valM ys < valM xs) := by
  intro xs
  induction xs with
  | nil =>
    intro ys hlen _ _
    have : ys = [] := List.length_eq_zero.mp hlen.symm
    subst this
    exact Or.inr (Or.inl ⟨rfl, rfl⟩)
  | cons x xs ih =>
    intro ys hlen hv1 hv2
    cases ys with
    | nil => simp at hlen
    | cons y ys' =>
      have hlen' : xs.length = ys'.length := by
        simpa using hlen
      have hvx : ValidDigits xs := fun a hx => hv1 a (List.mem_cons_of_mem x hx)
      have hvy : ValidDigits ys' := fun a hx => hv2 a (List.mem_cons_of_mem y hx)
      by_cases hxy : x = y
      · subst hxy
        rw [cmpMSD, if_neg (by simp)]
        rcases ih ys' hlen' hvx hvy with ⟨hc, hv⟩ | ⟨hc, hv⟩ | ⟨hc, hv⟩
        · left
          refine ⟨hc, ?_⟩
          simp only [valM, hlen']
          omega
        · right; left
          exact ⟨hc, by rw [hv]⟩
        · right; right
          refine ⟨hc, ?_⟩
          simp only [valM, hlen']
          omega
      · rw [cmpMSD, if_pos (by simpa using hxy)]
        by_cases hlt : x < y
        · left
          exact ⟨by rw [if_pos hlt], valM_lt_of_msd_lt hlen' hvx hlt⟩
        · right; right
          have hgt : y < x := by omega
          exact ⟨by rw [if_neg hlt], valM_lt_of_msd_lt hlen'.symm hvy hgt⟩

theorem canonical_val_lt_of_length_lt {a b : BigInt} (ha : Canonical a)
    (hb : Canonical b) (hlen : a.digits.length < b.digits.length) :
    val a.digits < val b.digits := by
  have hbne := hb.2.1
  have hb0 : b.digits ≠ [0] := by
    intro hc
    rw [hc] at hlen
    simp at hlen
    exact ha.2.1 hlen
  have hlast : b.digits.getLast hbne ≠ 0 := by
    rcases hb.2.2.1 with hg | hg
    · rw [List.getLast?_eq_getLast_of_ne_nil hbne] at hg
      exact fun hc => hg (by rw [hc])
    · exact absurd hg hb0
  have h1 : 10 ^ (b.digits.length - 1) ≤ val b.digits :=
    pow_le_val_of_getLast_ne_zero hbne hlast
  have h2 : val a.digits < 10 ^ a.digits.length := val_lt_pow_length ha.1
  have h3 : 10 ^ a.digits.length ≤ 10 ^ (b.digits.length - 1) :=
    Nat.pow_le_pow_right (by norm_num) (by omega)
  omega

/-- Trichotomy for `compareMagnitude` on canonical representations. -/
theorem compareMagnitude_spec {a b : BigInt} (ha : Canonical a)
    (hb : Canonical b) :
    (compareMagnitude a b = -1 ∧ val a.digits < val b.digits) ∨
    (compareMagnitude a b = 0 ∧ a.digits = b.digits) ∨
    (compareMagnitude a b = 1 ∧ val b.digits < val a.digits) := by
  unfold compareMagnitude
  by_cases hlen : a.digits.length = b.digits.length
  · rw [if_neg (by simpa using hlen)]
    have hrl : a.digits.reverse.length = b.digits.reverse.length := by
      simpa using hlen
    have hv1 : ValidDigits a.digits.reverse := fun d hd =>
      ha.1 d (List.mem_reverse.mp hd)
    have hv2 : ValidDigits b.digits.reverse := fun d hd =>
      hb.1 d (List.mem_reverse.mp hd)
    rcases cmpMSD_spec _ _ hrl hv1 hv2 with ⟨hc, hv⟩ | ⟨hc, hv⟩ | ⟨hc, hv⟩
    · left
      rw [val_eq_valM_reverse, val_eq_valM_reverse]
      exact ⟨hc, hv⟩
    · right; left
      exact ⟨hc, List.reverse_injective hv⟩
    · right; right
      rw [val_eq_valM_reverse, val_eq_valM_reverse]
      exact ⟨hc, hv⟩
  · rw [if_pos hlen]
    by_cases hlt : a.digits.length < b.digits.length
    · left
      exact ⟨by rw [if_pos hlt], canonical_val_lt_of_length_lt ha hb hlt⟩
    · right; right
      have : b.digits.length < a.digits.length := by omega
      exact ⟨by rw [if_neg hlt], canonical_val_lt_of_length_lt hb ha this⟩

theorem beqB_iff {a b : BigInt} : beqB a b = true ↔ a = b := by
  unfold beqB
  cases a; cases b
  simp [BigInt.mk.injEq, and_comm]

theorem ltB_correct {a b : BigInt} (ha : Canonical a) (hb : Canonical b) :
    ltB a b = true ↔ a.toInt < b.toInt := by
  unfold ltB
  by_cases hne : a.negative ≠ b.negative
  · rw [if_pos hne]
    cases hx : a.negative with
    | false =>
      have hy : b.negative = true := by
        cases hy : b.negative
        · rw [hx, hy] at hne; exact absurd rfl hne
        · rfl
      have h1 : 0 ≤ a.toInt := by
        have := canonical_toInt_neg_iff ha
        rw [hx] at this
        simp at this
        omega
      have h2 : b.toInt < 0 := (canonical_toInt_neg_iff hb).mpr hy
      constructor
      · intro hc; exact Bool.noConfusion hc
      · intro hc; omega
    | true =>
      have hy : b.negative = false := by
        cases hy : b.negative
        · rfl
        · rw [hx, hy] at hne; exact absurd rfl hne
      have h1 : a.toInt < 0 := (canonical_toInt_neg_iff ha).mpr hx
      have h2 : 0 ≤ b.toInt := by
        have := canonical_toInt_neg_iff hb
        rw [hy] at this
        simp at this
        omega
      simp only [true_iff]
      omega
  · rw [if_neg hne]
    push_neg at hne
    rcases compareMagnitude_spec ha hb with ⟨hc, hv⟩ | ⟨hc, hv⟩ | ⟨hc, hv⟩
    · rw [hc]
      cases hx : a.negative with
      | false =>
        have hy : b.negative = false := by rw [← hne, hx]
        unfold BigInt.toInt
        rw [hx, hy]
        simp only [Bool.false_eq_true, if_false]
        simp
        omega
      | true =>
        have hy : b.negative = true := by rw [← hne, hx]
        unfold BigInt.toInt
        rw [hx, hy]
        simp only [if_true]
        simp
        omega
    · rw [hc]
      have : a.toInt = b.toInt := by
        unfold BigInt.toInt
        rw [hne, hv]
      simp only [this]
      constructor
      · intro h2
        simp at h2
      · intro h2; omega
    · rw [hc]
      cases hx : a.negative with
      | false =>
        have hy : b.negative = false := by rw [← hne, hx]
        unfold BigInt.toInt
        rw [hx, hy]
        simp only [Bool.false_eq_true, if_false]
        simp
        omega
      | true =>
        have hy : b.negative = true := by rw [← hne, hx]
        unfold BigInt.toInt
        rw [hx, hy]
        simp only [if_true]
        simp
        omega

theorem leB_correct {a b : BigInt} (ha : Canonical a) (hb : Canonical b) :
    leB a b = true ↔ a.toInt ≤ b.toInt := by
  unfold leB
  rw [Bool.or_eq_true, ltB_correct ha hb, beqB_iff]
  constructor
  · rintro (h | h)
    · omega
    · rw [h]
  · intro h
    rcases lt_or_eq_of_le h with h1 | h1
    · exact Or.inl h1
    · exact Or.inr (canonical_ext ha hb h1)

theorem geB_correct {a b : BigInt} (ha : Canonical a) (hb : Canonical b) :
    geB a b = true ↔ b.toInt ≤ a.toInt := by
  unfold geB
  rw [Bool.not_eq_true']
  rw [← Bool.not_eq_true (ltB a b)]
  constructor
  · intro h
    have : ¬ (a.toInt < b.toInt) := fun hc => h ((ltB_correct ha hb).mpr hc)
    omega
  · intro h hc
    have := (ltB_correct ha hb).mp hc
    omega

theorem gtB_correct {a b : BigInt} (ha : Canonical a) (hb : Canonical b) :
    gtB a b = true ↔ b.toInt < a.toInt := by
  unfold gtB
  rw [Bool.not_eq_true']
  rw [← Bool.not_eq_true (leB a b)]
  constructor
  · intro h
    have : ¬ (a.toInt ≤ b.toInt) := fun hc => h ((leB_correct ha hb).mpr hc)
    omega
  · intro h hc
    have := (leB_correct ha hb).mp hc
    omega

theorem toInt_negB (a : BigInt) : (negB a).toInt = -a.toInt := by
  unfold negB BigInt.toInt
  cases h : a.negative <;> simp [h]

theorem negB_digits (a : BigInt) : (negB a).digits = a.digits := rfl

theorem negB_canonical {a : BigInt} (ha : Canonical a)
    (h0 : a.digits ≠ [0]) : Canonical (negB a) := by
  unfold Canonical negB
  refine ⟨ha.1, ha.2.1, ha.2.2.1, ?_⟩
  intro hc
  exact absurd hc h0

theorem isNegativeB_canonical {a : BigInt} (ha : Canonical a) :
    isNegativeB a = a.negative := by
  unfold isNegativeB
  cases hx : a.negative with
  | false => simp
  | true =>
    have hz : isZeroB a = false := by
      cases hz : isZeroB a with
      | false => rfl
      | true =>
        rw [isZeroB_iff] at hz
        have := ha.2.2.2 hz
        rw [this] at hx
        exact Bool.noConfusion hx
    rw [hz]
    rfl

theorem absB_spec {a : BigInt} (ha : Canonical a) :
    (absB a).digits = a.digits ∧ (absB a).negative = false ∧
      Canonical (absB a) := by
  unfold absB
  rw [isNegativeB_canonical ha]
  cases hx : a.negative with
  | false =>
    rw [if_neg Bool.false_ne_true]
    exact ⟨rfl, hx, ha⟩
  | true =>
    rw [if_pos rfl]
    have h0 : a.digits ≠ [0] := by
      intro hc
      have := ha.2.2.2 hc
      rw [this] at hx
      exact Bool.noConfusion hx
    refine ⟨rfl, ?_, negB_canonical ha h0⟩
    unfold negB
    simp [hx]

theorem toInt_absB {a : BigInt} (ha : Canonical a) :
    (absB a).toInt = (a.toInt.natAbs : Int) := by
  obtain ⟨h1, h2, _⟩ := absB_spec ha
  have hstep : (absB a).toInt = (val a.digits : Int) := by
    unfold BigInt.toInt
    rw [h1, h2]
    simp
  rw [hstep, ← canonical_toInt_natAbs a]

theorem cmpMSD_swap : ∀ (xs ys : List Nat), cmpMSD ys xs = -(cmpMSD xs ys) := by
  intro xs
  induction xs with
  | nil =>
    intro ys
    cases ys with
    | nil => rfl
    | cons y ys' => rfl
  | cons x xs ih =>
    intro ys
    cases ys with
    | nil => rfl
    | cons y ys' =>
      rw [cmpMSD, cmpMSD]
      rcases Nat.lt_trichotomy x y with h | h | h
      · rw [if_pos (by omega : y ≠ x), if_neg (by omega : ¬ y < x),
          if_pos (by omega : x ≠ y), if_pos h]
        decide
      · subst h
        rw [if_neg (by simp : ¬ (x ≠ x))]
        rw [if_neg (by simp : ¬ (x ≠ x))]
        exact ih ys'
      · rw [if_pos (by omega : y ≠ x), if_pos h,
          if_pos (by omega : x ≠ y), if_neg (by omega : ¬ x < y)]

theorem compareMagnitude_swap (a b : BigInt) :
    compareMagnitude b a = -(compareMagnitude a b) := by
  unfold compareMagnitude
  rcases Nat.lt_trichotomy a.digits.length b.digits.length with h | h | h
  · rw [if_pos (by omega : b.digits.length ≠ a.digits.length),
      if_neg (by omega : ¬ b.digits.length < a.digits.length),
      if_pos (by omega : a.digits.length ≠ b.digits.length), if_pos h]
    decide
  · rw [if_neg (by omega : ¬ b.digits.length ≠ a.digits.length),
      if_neg (by omega : ¬ a.digits.length ≠ b.digits.length)]
    exact cmpMSD_swap _ _
  · rw [if_pos (by omega : b.digits.length ≠ a.digits.length), if_pos h,
      if_pos (by omega : a.digits.length ≠ b.digits.length),
      if_neg (by omega : ¬ a.digits.length < b.digits.length)]

theorem ltB_asymm {a b : BigInt} (h : ltB a b = true) : ltB b a = false := by
  unfold ltB at h ⊢
  by_cases hne : a.negative ≠ b.negative
  · rw [if_pos hne] at h
    rw [if_pos (Ne.symm hne)]
    cases hx : a.negative with
    | false => rw [hx] at h; exact Bool.noConfusion h
    | true =>
      cases hy : b.negative with
      | false => rfl
      | true => rw [hx, hy] at hne; exact absurd rfl hne
  · rw [if_neg hne] at h
    push_neg at hne
    rw [if_neg (fun hc => hc hne.symm)]
    have hswap := compareMagnitude_swap a b
    cases hx : a.negative with
    | false =>
      rw [hx] at h hne
      rw [← hne]
      simp only [Bool.false_eq_true, if_false] at h ⊢
      rw [decide_eq_true_iff] at h
      rw [decide_eq_false_iff_not]
      omega
    | true =>
      rw [hx] at h hne
      rw [← hne]
      simp only [if_true] at h ⊢
      rw [decide_eq_true_iff] at h
      rw [decide_eq_false_iff_not]
      omega

theorem addTail_val : ∀ (ys : List Nat) (c : Nat),
    val (addTail ys c) = val ys + c := by
  intro ys
  induction ys with
  | nil => intro c; rw [addTail]; simp [val, val_digitsOfNat]
  | cons y ys ih =>
    intro c
    rw [addTail]
    simp only [val]
    rw [ih ((y + c) / 10)]
    omega

theorem addLoop_val : ∀ (xs ys : List Nat) (c : Nat),
    val (addLoop xs ys c) = val xs + val ys + c := by
  intro xs
  induction xs with
  | nil =>
    intro ys c
    rw [addLoop, addTail_val]
    simp [val]
  | cons x xs ih =>
    intro ys c
    cases ys with
    | nil =>
      rw [addLoop]
      simp only [val]
      rw [ih [] ((x + c) / 10)]
      simp [val]
      omega
    | cons y ys =>
      rw [addLoop]
      simp only [val]
      rw [ih ys ((x + y + c) / 10)]
      omega

theorem addTail_valid : ∀ (ys : List Nat) (c : Nat),
    ValidDigits (addTail ys c) := by
  intro ys
  induction ys with
  | nil => intro c; rw [addTail]; exact validDigits_digitsOfNat c
  | cons y ys ih =>
    intro c
    rw [addTail]
    intro d hd
    rcases List.mem_cons.mp hd with h1 | h2
    · subst h1; omega
    · exact ih _ d h2

theorem addLoop_valid : ∀ (xs ys : List Nat) (c : Nat),
    ValidDigits (addLoop xs ys c) := by
  intro xs
  induction xs with
  | nil => intro ys c; rw [addLoop]; exact addTail_valid ys c
  | cons x xs ih =>
    intro ys c
    cases ys with
    | nil =>
      rw [addLoop]
      intro d hd
      rcases List.mem_cons.mp hd with h1 | h2
      · subst h1; omega
      · exact ih [] _ d h2
    | cons y ys =>
      rw [addLoop]
      intro d hd
      rcases List.mem_cons.mp hd with h1 | h2
      · subst h1; omega
      · exact ih ys _ d h2

theorem addTail_shape : ∀ (ys : List Nat) (c : Nat), ValidDigits ys → c ≤ 1 →
    (addTail ys c).length = ys.length ∨
    ((addTail ys c).length = ys.length + 1 ∧
      (addTail ys c).getLast? = some 1) := by
  intro ys
  induction ys with
  | nil =>
    intro c _ hc
    rw [addTail]
    interval_cases c
    · left; rfl
    · right; exact ⟨rfl, rfl⟩
  | cons y ys ih =>
    intro c hv hc
    have hy : y < 10 := hv y (List.mem_cons_self y ys)
    have hvy : ValidDigits ys := fun d hd => hv d (List.mem_cons_of_mem y hd)
    have hc' : (y + c) / 10 ≤ 1 := by omega
    rw [addTail]
    rcases ih _ hvy hc' with h | ⟨h1, h2⟩
    · left
      simp only [List.length_cons, h]
    · right
      refine ⟨by simp only [List.length_cons, h1], ?_⟩
      have hne : addTail ys ((y + c) / 10) ≠ [] := by
        intro hcon
        rw [hcon] at h1
        simp at h1
      rw [getLast?_cons_ne_nil hne]
      exact h2

theorem addLoop_shape : ∀ (xs ys : List Nat) (c : Nat), ValidDigits xs →
    ValidDigits ys → c ≤ 1 →
    (addLoop xs ys c).length = max xs.length ys.length ∨
    ((addLoop xs ys c).length = max xs.length ys.length + 1 ∧
      (addLoop xs ys c).getLast? = some 1) := by
  intro xs
  induction xs with
  | nil =>
    intro ys c _ hv2 hc
    rw [addLoop]
    rcases addTail_shape ys c hv2 hc with h | ⟨h1, h2⟩
    · left; rw [h]; simp
    · right
      refine ⟨?_, h2⟩
      rw [h1]
      simp only [List.length_nil]
      omega
  | cons x xs ih =>
    intro ys c hv1 hv2 hc
    have hx : x < 10 := hv1 x (List.mem_cons_self x xs)
    have hvx : ValidDigits xs := fun d hd => hv1 d (List.mem_cons_of_mem x hd)
    cases ys with
    | nil =>
      have hc' : (x + c) / 10 ≤ 1 := by omega
      rw [addLoop]
      rcases ih [] _ hvx (fun d hd => (by cases hd)) hc' with h | ⟨h1, h2⟩
      · left
        simp only [List.length_cons, h, List.length_nil]
        omega
      · right
        constructor
        · simp only [List.length_cons, h1, List.length_nil]
          omega
        · have hne : addLoop xs [] ((x + c) / 10) ≠ [] := by
            intro hcon
            rw [hcon] at h1
            simp at h1
          rw [getLast?_cons_ne_nil hne]
          exact h2
    | cons y ys =>
      have hy : y < 10 := hv2 y (List.mem_cons_self y ys)
      have hvy : ValidDigits ys := fun d hd => hv2 d (List.mem_cons_of_mem y hd)
      have hc' : (x + y + c) / 10 ≤ 1 := by omega
      rw [addLoop]
      rcases ih ys _ hvx hvy hc' with h | ⟨h1, h2⟩
      · left
        simp only [List.length_cons, h]
        omega
      · right
        constructor
        · simp only [List.length_cons, h1]
          omega
        · have hne : addLoop xs ys ((x + y + c) / 10) ≠ [] := by
            intro hcon
            rw [hcon] at h1
            simp at h1
          rw [getLast?_cons_ne_nil hne]
          exact h2

theorem subLoopD_length : ∀ (xs ys : List Nat) (b : Nat),
    (subLoopD xs ys b).length = xs.length := by
  intro xs
  induction xs with
  | nil => intro ys b; rfl
  | cons x xs ih =>
    intro ys b
    cases ys with
    | nil =>
      rw [subLoopD]
      by_cases hd : (x : Int) - b < 0
      · rw [if_pos hd]; simp [ih]
      · rw [if_neg hd]; simp [ih]
    | cons y ys =>
      rw [subLoopD]
      by_cases hd : (x : Int) - b - y < 0
      · rw [if_pos hd]; simp [ih]
      · rw [if_neg hd]; simp [ih]

theorem subLoopD_valid : ∀ (xs ys : List Nat) (b : Nat), ValidDigits xs →
    ValidDigits (subLoopD xs ys b) := by
  intro xs
  induction xs with
  | nil => intro ys b _ d hd; cases hd
  | cons x xs ih =>
    intro ys b hv
    have hx : x < 10 := hv x (List.mem_cons_self x xs)
    have hvx : ValidDigits xs := fun d hd => hv d (List.mem_cons_of_mem x hd)
    cases ys with
    | nil =>
      rw [subLoopD]
      by_cases hd : (x : Int) - b < 0
      · rw [if_pos hd]
        intro d hdm
        rcases List.mem_cons.mp hdm with h1 | h2
        · subst h1; omega
        · exact ih [] 1 hvx d h2
      · rw [if_neg hd]
        intro d hdm
        rcases List.mem_cons.mp hdm with h1 | h2
        · subst h1; omega
        · exact ih [] 0 hvx d h2
    | cons y ys =>
      rw [subLoopD]
      by_cases hd : (x : Int) - b - y < 0
      · rw [if_pos hd]
        intro d hdm
        rcases List.mem_cons.mp hdm with h1 | h2
        · subst h1; omega
        · exact ih ys 1 hvx d h2
      · rw [if_neg hd]
        intro d hdm
        rcases List.mem_cons.mp hdm with h1 | h2
        · subst h1; omega
        · exact ih ys 0 hvx d h2

theorem subLoopD_val : ∀ (xs ys : List Nat) (b : Nat), ValidDigits xs →
    ValidDigits ys → b ≤ 1 → ys.length ≤ xs.length → val ys + b ≤ val xs →
    val (subLoopD xs ys b) + val ys + b = val xs := by
  intro xs
  induction xs with
  | nil =>
    intro ys b _ _ _ hlen hle
    have hys : ys = [] := List.eq_nil_of_length_eq_zero (by simpa using hlen)
    subst hys
    simp [val, subLoopD] at hle ⊢
    simpa using hle
  | cons x xs ih =>
    intro ys b hv hvy0 hb hlen hle
    have hx : x < 10 := hv x (List.mem_cons_self x xs)
    have hvx : ValidDigits xs := fun d hd => hv d (List.mem_cons_of_mem x hd)
    cases ys with
    | nil =>
      rw [subLoopD]
      by_cases hd : (x : Int) - b < 0
      · rw [if_pos hd]
        have hxs : 0 + 1 ≤ val xs := by
          simp only [val] at hle
          omega
        have := ih [] 1 hvx hvy0 (by omega) (by simp) (by simpa [val] using hxs)
        simp only [val] at hle this ⊢
        omega
      · rw [if_neg hd]
        have := ih [] 0 hvx hvy0 (by omega) (by simp) (by simp [val])
        simp only [val] at hle this ⊢
        omega
    | cons y ys =>
      have hy : y < 10 := hvy0 y (List.mem_cons_self y ys)
      have hvy : ValidDigits ys := fun d hd => hvy0 d (List.mem_cons_of_mem y hd)
      have hlen' : ys.length ≤ xs.length := by simpa using hlen
      rw [subLoopD]
      by_cases hd : (x : Int) - b - y < 0
      · rw [if_pos hd]
        have hys : val ys + 1 ≤ val xs := by
          simp only [val] at hle
          omega
        have := ih ys 1 hvx hvy (by omega) hlen' hys
        simp only [val] at hle this ⊢
        omega
      · rw [if_neg hd]
        have hys : val ys + 0 ≤ val xs := by
          simp only [val] at hle
          omega
        have := ih ys 0 hvx hvy (by omega) hlen' hys
        simp only [val] at hle this ⊢
        omega

theorem toInt_flag_false {a : BigInt} (h : a.negative = false) :
    a.toInt = (val a.digits : Int) := by
  unfold BigInt.toInt
  rw [h]
  simp

theorem canonical_nonzero_of_flag {a : BigInt} (ha : Canonical a)
    (h : a.negative = true) : a.digits ≠ [0] := by
  intro hc
  have := ha.2.2.2 hc
  rw [this] at h
  exact Bool.noConfusion h

theorem canonical_pow_le {a : BigInt} (ha : Canonical a)
    (h0 : a.digits ≠ [0]) : 10 ^ (a.digits.length - 1) ≤ val a.digits := by
  have hne := ha.2.1
  have hlast : a.digits.getLast hne ≠ 0 := by
    rcases ha.2.2.1 with hg | hg
    · rw [List.getLast?_eq_getLast_of_ne_nil hne] at hg
      exact fun hc => hg (by rw [hc])
    · exact absurd hg h0
  exact pow_le_val_of_getLast_ne_zero hne hlast

theorem canonical_pow_le_sum {a b : BigInt} (ha : Canonical a)
    (hb : Canonical b) (h0 : ¬(a.digits = [0] ∧ b.digits = [0])) :
    10 ^ (max a.digits.length b.digits.length - 1) ≤
      val a.digits + val b.digits := by
  by_cases hab : b.digits.length ≤ a.digits.length
  · rw [Nat.max_eq_left hab]
    by_cases h0a : a.digits = [0]
    · have hla : a.digits.length = 1 := by rw [h0a]; rfl
      have h0b : b.digits ≠ [0] := fun hc => h0 ⟨h0a, hc⟩
      have : val b.digits ≠ 0 := fun hc => h0b ((canonical_val_zero hb).mp hc)
      rw [hla]
      simp
      omega
    · have := canonical_pow_le ha h0a
      omega
  · rw [Nat.max_eq_right (by omega)]
    by_cases h0b : b.digits = [0]
    · have hlb : b.digits.length = 1 := by rw [h0b]; rfl
      have hla : a.digits.length = 0 := by omega
      exact absurd (List.eq_nil_of_length_eq_zero hla) ha.2.1
    · have := canonical_pow_le hb h0b
      omega

theorem addSame_spec {a b : BigInt} (ha : Canonical a) (hb : Canonical b)
    (hs : a.negative = b.negative) :
    Canonical (addSame a b) ∧ (addSame a b).toInt = a.toInt + b.toInt ∧
      (addSame a b).negative = a.negative ∧
      val (addSame a b).digits = val a.digits + val b.digits := by
  have hdig : (addSame a b).digits = addLoop a.digits b.digits 0 := rfl
  have hval : val (addSame a b).digits = val a.digits + val b.digits := by
    rw [hdig, addLoop_val]
    omega
  have hvd : ValidDigits (addSame a b).digits := addLoop_valid _ _ _
  have hflag : (addSame a b).negative = a.negative := rfl
  have hshape := addLoop_shape a.digits b.digits 0 ha.1 hb.1 (by omega)
  rw [← hdig] at hshape
  have hlen1 : 1 ≤ max a.digits.length b.digits.length := by
    have h1 : 1 ≤ a.digits.length := by
      cases hd : a.digits
      · exact absurd hd ha.2.1
      · simp
    omega
  have hne : (addSame a b).digits ≠ [] := by
    intro hc
    have h0 : (addSame a b).digits.length = 0 := by rw [hc]; rfl
    rcases hshape with h | ⟨h, _⟩ <;> omega
  have hcan : Canonical (addSame a b) := by
    by_cases h0 : a.digits = [0] ∧ b.digits = [0]
    · have hz : (addSame a b).digits = [0] := by
        rw [hdig, h0.1, h0.2]
        rfl
      refine ⟨hvd, hne, Or.inr hz, fun _ => ?_⟩
      rw [hflag, ha.2.2.2 h0.1]
    · have hsum := canonical_pow_le_sum ha hb h0
      have hd0 : (addSame a b).digits ≠ [0] := by
        intro hc
        have hv0 : val (addSame a b).digits = 0 := by rw [hc]; rfl
        rw [hval] at hv0
        have hva : val a.digits = 0 := by omega
        have hvb : val b.digits = 0 := by omega
        exact h0 ⟨(canonical_val_zero ha).mp hva, (canonical_val_zero hb).mp hvb⟩
      refine ⟨hvd, hne, Or.inl ?_, fun hc => absurd hc hd0⟩
      rcases hshape with h | ⟨h, h2⟩
      · rw [List.getLast?_eq_getLast_of_ne_nil hne]
        intro hcon
        have hlast : (addSame a b).digits.getLast hne = 0 :=
          Option.some_injective _ hcon
        have hlt := val_lt_pow_of_getLast_eq_zero hvd hne hlast
        rw [hval, h] at hlt
        omega
      · rw [h2]
        simp
  refine ⟨hcan, ?_, hflag, hval⟩
  cases hfa : a.negative with
  | false =>
    have hfb : b.negative = false := by rw [← hs, hfa]
    rw [toInt_flag_false (by rw [hflag, hfa]), toInt_flag_false hfa,
      toInt_flag_false hfb, hval]
    push_cast
    ring
  | true =>
    have hfb : b.negative = true := by rw [← hs, hfa]
    have h1 : (addSame a b).toInt = -(val (addSame a b).digits : Int) := by
      unfold BigInt.toInt
      rw [hflag, hfa]
      simp
    have h2 : a.toInt = -(val a.digits : Int) := by
      unfold BigInt.toInt
      rw [hfa]
      simp
    have h3 : b.toInt = -(val b.digits : Int) := by
      unfold BigInt.toInt
      rw [hfb]
      simp
    rw [h1, h2, h3, hval]
    push_cast
    ring

theorem canonical_length_le_of_val_le {a b : BigInt} (ha : Canonical a)
    (hb : Canonical b) (h : val b.digits ≤ val a.digits) :
    b.digits.length ≤ a.digits.length := by
  by_contra hc
  push_neg at hc
  have := canonical_val_lt_of_length_lt ha hb hc
  omega

theorem normalizeB_false_flag (l : List Nat) :
    (normalizeB { digits := l, negative := false }).negative = false := by
  unfold normalizeB
  simp only
  split <;> rfl

theorem subCore_spec {a b : BigInt} (ha : Canonical a) (hb : Canonical b)
    (hle : val b.digits ≤ val a.digits) :
    Canonical (subCore a b) ∧ (subCore a b).negative = false ∧
      val (subCore a b).digits + val b.digits = val a.digits := by
  unfold subCore
  have hlen := canonical_length_le_of_val_le ha hb hle
  have hval := subLoopD_val a.digits b.digits 0 ha.1 hb.1 (by omega) hlen
    (by omega)
  have hvd := subLoopD_valid a.digits b.digits 0 ha.1
  have hne : subLoopD a.digits b.digits 0 ≠ [] := by
    intro hc
    have h1 := subLoopD_length a.digits b.digits 0
    rw [hc] at h1
    exact ha.2.1 (List.eq_nil_of_length_eq_zero h1.symm)
  refine ⟨normalizeB_canonical hvd hne, normalizeB_false_flag _, ?_⟩
  rw [normalizeB_val]
  simp only
  omega

theorem subFuel_succ (fuel : Nat) (a b : BigInt) :
    subFuel (fuel + 1) a b =
      if a.negative ≠ b.negative then
        (if a.negative then negB (addSame (negB a) b) else addSame a (negB b))
      else if a.negative then subFuel fuel (negB b) (negB a)
      else if ltB a b then negB (subFuel fuel b a)
      else subCore a b := rfl

/-- Unfolding of the both-non-negative case of `operator-`: the inner
recursive call (after a swap) always lands in the borrow-loop branch,
because the code's `operator<` is asymmetric. -/
theorem subFuel_ff {a b : BigInt} (fuel : Nat) (ha : a.negative = false)
    (hb : b.negative = false) :
    subFuel (fuel + 2) a b =
      if ltB a b then negB (subCore b a) else subCore a b := by
  rw [subFuel_succ]
  rw [if_neg (by rw [ha, hb]; simp)]
  rw [if_neg (by rw [ha]; simp)]
  by_cases hlt : ltB a b = true
  · rw [if_pos hlt, if_pos hlt]
    congr 1
    rw [subFuel_succ]
    rw [if_neg (by rw [ha, hb]; simp), if_neg (by rw [hb]; simp),
      if_neg (by rw [ltB_asymm hlt]; simp)]
  · rw [if_neg hlt, if_neg hlt]

theorem sub_ff_spec {a b : BigInt} (ha : Canonical a) (hb : Canonical b)
    (hfa : a.negative = false) (hfb : b.negative = false) (fuel : Nat) :
    Canonical (subFuel (fuel + 2) a b) ∧
      (subFuel (fuel + 2) a b).toInt = a.toInt - b.toInt := by
  rw [subFuel_ff fuel hfa hfb]
  have hta := toInt_flag_false hfa
  have htb := toInt_flag_false hfb
  by_cases hlt : ltB a b = true
  · rw [if_pos hlt]
    have hlt2 : a.toInt < b.toInt := (ltB_correct ha hb).mp hlt
    have hlev : val a.digits ≤ val b.digits := by
      rw [hta, htb] at hlt2
      omega
    obtain ⟨hcan, hflag, hval⟩ := subCore_spec hb ha hlev
    have hstrict : val a.digits < val b.digits := by
      rw [hta, htb] at hlt2
      omega
    have hnz : (subCore b a).digits ≠ [0] := by
      intro hc
      have h0 : val (subCore b a).digits = 0 := by rw [hc]; rfl
      omega
    refine ⟨negB_canonical hcan hnz, ?_⟩
    rw [toInt_negB, toInt_flag_false hflag, hta, htb]
    omega
  · rw [if_neg hlt]
    have hge : b.toInt ≤ a.toInt := by
      rcases Int.lt_or_le a.toInt b.toInt with h | h
      · exact absurd ((ltB_correct ha hb).mpr h) hlt
      · exact h
    have hlev : val b.digits ≤ val a.digits := by
      rw [hta, htb] at hge
      omega
    obtain ⟨hcan, hflag, hval⟩ := subCore_spec ha hb hlev
    refine ⟨hcan, ?_⟩
    rw [toInt_flag_false hflag, hta, htb]
    omega

theorem subB_spec {a b : BigInt} (ha : Canonical a) (hb : Canonical b) :
    Canonical (subB a b) ∧ (subB a b).toInt = a.toInt - b.toInt := by
  unfold subB
  cases hfa : a.negative with
  | false =>
    cases hfb : b.negative with
    | false => exact sub_ff_spec ha hb hfa hfb 1
    | true =>
      rw [show (3 : Nat) = 2 + 1 from rfl, subFuel_succ]
      rw [if_pos (by rw [hfa, hfb]; simp), if_neg (by rw [hfa]; simp)]
      have hbz := canonical_nonzero_of_flag hb hfb
      have hnb := negB_canonical hb hbz
      have hnbf : (negB b).negative = false := by simp [negB, hfb]
      obtain ⟨hc1, hc2, _, _⟩ := addSame_spec ha hnb (by rw [hfa, hnbf])
      refine ⟨hc1, ?_⟩
      rw [hc2, toInt_negB]
      ring
  | true =>
    have haz := canonical_nonzero_of_flag ha hfa
    have hna := negB_canonical ha haz
    have hnaf : (negB a).negative = false := by simp [negB, hfa]
    cases hfb : b.negative with
    | false =>
      rw [show (3 : Nat) = 2 + 1 from rfl, subFuel_succ]
      rw [if_pos (by rw [hfa, hfb]; simp), if_pos hfa]
      obtain ⟨hc1, hc2, hc3, hc4⟩ := addSame_spec hna hb (by rw [hnaf, hfb])
      have hnz : (addSame (negB a) b).digits ≠ [0] := by
        intro hc
        have h0 : val (addSame (negB a) b).digits = 0 := by rw [hc]; rfl
        rw [hc4] at h0
        have hva : val (negB a).digits = 0 := by omega
        have : (negB a).digits = [0] := (canonical_val_zero hna).mp hva
        rw [negB_digits] at this
        exact haz this
      refine ⟨negB_canonical hc1 hnz, ?_⟩
      rw [toInt_negB, hc2, toInt_negB]
      ring
    | true =>
      rw [show (3 : Nat) = 2 + 1 from rfl, subFuel_succ]
      rw [if_neg (by rw [hfa, hfb]; simp), if_pos hfa]
      have hbz := canonical_nonzero_of_flag hb hfb
      have hnb := negB_canonical hb hbz
      have hnbf : (negB b).negative = false := by simp [negB, hfb]
      obtain ⟨hc1, hc2⟩ := sub_ff_spec hnb hna hnbf hnaf 0
      refine ⟨hc1, ?_⟩
      rw [hc2, toInt_negB, toInt_negB]
      ring

theorem addB_spec {a b : BigInt} (ha : Canonical a) (hb : Canonical b) :
    Canonical (addB a b) ∧ (addB a b).toInt = a.toInt + b.toInt := by
  unfold addB
  by_cases hne : a.negative ≠ b.negative
  · rw [if_pos hne]
    cases hfa : a.negative with
    | false =>
      rw [if_neg (by simp)]
      have hfb : b.negative = true := by
        cases hfb : b.negative
        · rw [hfa, hfb] at hne; exact absurd rfl hne
        · rfl
      have hbz := canonical_nonzero_of_flag hb hfb
      have hnb := negB_canonical hb hbz
      obtain ⟨hc1, hc2⟩ := subB_spec ha hnb
      refine ⟨hc1, ?_⟩
      rw [hc2, toInt_negB]
      ring
    | true =>
      rw [if_pos rfl]
      have haz := canonical_nonzero_of_flag ha hfa
      have hna := negB_canonical ha haz
      obtain ⟨hc1, hc2⟩ := subB_spec hb hna
      refine ⟨hc1, ?_⟩
      rw [hc2, toInt_negB]
      ring
  · rw [if_neg hne]
    push_neg at hne
    obtain ⟨hc1, hc2, _, _⟩ := addSame_spec ha hb hne
    exact ⟨hc1, hc2⟩

theorem val_headD_tail (buf : List Nat) :
    buf.headD 0 + 10 * val buf.tail = val buf := by
  cases buf with
  | nil => rfl
  | cons b buf => rfl

theorem addCarry_val : ∀ (buf : List Nat) (c : Nat),
    val (addCarry buf c) = val buf + c := by
  intro buf
  induction buf with
  | nil => intro c; rw [addCarry]; simp [val, val_digitsOfNat]
  | cons b buf ih =>
    intro c
    rw [addCarry]
    by_cases hc : c = 0
    · rw [if_pos hc, hc]
      omega
    · rw [if_neg hc]
      simp only [val]
      rw [ih]
      omega

theorem addCarry_valid : ∀ (buf : List Nat) (c : Nat), ValidDigits buf →
    ValidDigits (addCarry buf c) := by
  intro buf
  induction buf with
  | nil => intro c _; rw [addCarry]; exact validDigits_digitsOfNat c
  | cons b buf ih =>
    intro c hv
    rw [addCarry]
    by_cases hc : c = 0
    · rw [if_pos hc]; exact hv
    · rw [if_neg hc]
      intro d hd
      rcases List.mem_cons.mp hd with h1 | h2
      · subst h1; omega
      · exact ih _ (fun e he => hv e (List.mem_cons_of_mem b he)) d h2

theorem addCarry_length : ∀ (buf : List Nat) (c : Nat),
    buf.length ≤ (addCarry buf c).length := by
  intro buf
  induction buf with
  | nil => intro c; simp
  | cons b buf ih =>
    intro c
    rw [addCarry]
    by_cases hc : c = 0
    · rw [if_pos hc]
    · rw [if_neg hc]
      simp only [List.length_cons]
      have := ih ((b + c) / 10)
      omega

theorem validDigits_tail {l : List Nat} (h : ValidDigits l) :
    ValidDigits l.tail := by
  intro d hd
  exact h d (List.mem_of_mem_tail hd)

theorem innerLoop_val (xi : Nat) : ∀ (ys buf : List Nat) (c : Nat),
    val (innerLoop xi ys buf c) = val buf + xi * val ys + c := by
  intro ys
  induction ys with
  | nil => intro buf c; rw [innerLoop, addCarry_val]; simp [val]
  | cons y ys ih =>
    intro buf c
    rw [innerLoop]
    simp only [val]
    rw [ih]
    have := val_headD_tail buf
    have hmod : (buf.headD 0 + c + xi * y) % 10 +
        10 * ((buf.headD 0 + c + xi * y) / 10) = buf.headD 0 + c + xi * y := by
      omega
    nlinarith [this, hmod]

theorem innerLoop_valid (xi : Nat) : ∀ (ys buf : List Nat) (c : Nat),
    ValidDigits buf → ValidDigits (innerLoop xi ys buf c) := by
  intro ys
  induction ys with
  | nil => intro buf c hv; rw [innerLoop]; exact addCarry_valid buf c hv
  | cons y ys ih =>
    intro buf c hv
    rw [innerLoop]
    intro d hd
    rcases List.mem_cons.mp hd with h1 | h2
    · subst h1; omega
    · exact ih _ _ (validDigits_tail hv) d h2

theorem innerLoop_length (xi : Nat) : ∀ (ys buf : List Nat) (c : Nat),
    buf.length ≤ (innerLoop xi ys buf c).length := by
  intro ys
  induction ys with
  | nil => intro buf c; rw [innerLoop]; exact addCarry_length buf c
  | cons y ys ih =>
    intro buf c
    rw [innerLoop]
    simp only [List.length_cons]
    have h1 := ih buf.tail ((buf.headD 0 + c + xi * y) / 10)
    have h2 : buf.length ≤ buf.tail.length + 1 := by
      cases buf <;> simp
    omega

theorem outerLoop_val (ys : List Nat) : ∀ (xs buf : List Nat),
    val (outerLoop ys xs buf) = val buf + val xs * val ys := by
  intro xs
  induction xs with
  | nil => intro buf; rw [outerLoop]; simp [val]
  | cons x xs ih =>
    intro buf
    rw [outerLoop]
    simp only [val]
    rw [ih]
    have h1 := val_headD_tail (innerLoop x ys buf 0)
    have h2 := innerLoop_val x ys buf 0
    nlinarith [h1, h2]

theorem outerLoop_valid (ys : List Nat) : ∀ (xs buf : List Nat),
    ValidDigits buf → ValidDigits (outerLoop ys xs buf) := by
  intro xs
  induction xs with
  | nil => intro buf hv; rw [outerLoop]; exact hv
  | cons x xs ih =>
    intro buf hv
    rw [outerLoop]
    have hv2 := innerLoop_valid x ys buf 0 hv
    intro d hd
    rcases List.mem_cons.mp hd with h1 | h2
    · subst h1
      cases hb : innerLoop x ys buf 0 with
      | nil => simp [hb]
      | cons e t =>
        have := hv2 e (by rw [hb]; exact List.mem_cons_self e t)
        simp [hb]
        omega
    · exact ih _ (validDigits_tail hv2) d h2

theorem outerLoop_length (ys : List Nat) : ∀ (xs buf : List Nat),
    buf.length ≤ (outerLoop ys xs buf).length := by
  intro xs
  induction xs with
  | nil => intro buf; rw [outerLoop]
  | cons x xs ih =>
    intro buf
    rw [outerLoop]
    simp only [List.length_cons]
    have h1 := ih (innerLoop x ys buf 0).tail
    have h2 := innerLoop_length x ys buf 0
    have h3 : (innerLoop x ys buf 0).length ≤
        (innerLoop x ys buf 0).tail.length + 1 := by
      cases h : innerLoop x ys buf 0 <;> simp
    omega

theorem val_replicate_zero (n : Nat) : val (List.replicate n 0) = 0 := by
  induction n with
  | zero => rfl
  | succ n ih => rw [List.replicate_succ]; simp [val, ih]

theorem zeroB_eq : zeroB = { digits := [0], negative := false } := rfl

theorem zeroB_canonical : Canonical zeroB := by
  rw [zeroB_eq]
  refine ⟨?_, by simp, Or.inr rfl, fun _ => rfl⟩
  intro d hd
  simp at hd
  omega

theorem toInt_zeroB : zeroB.toInt = 0 := rfl

theorem schoolbookMultiply_val (a b : BigInt) :
    val (schoolbookMultiply a b).digits = val a.digits * val b.digits := by
  unfold schoolbookMultiply
  rw [normalizeB_val]
  simp only
  rw [outerLoop_val, val_replicate_zero]
  ring

theorem mulB_spec {a b : BigInt} (ha : Canonical a) (hb : Canonical b) :
    Canonical (mulB a b) ∧ (mulB a b).toInt = a.toInt * b.toInt := by
  unfold mulB
  by_cases hz : (isZeroB a || isZeroB b) = true
  · rw [if_pos hz]
    refine ⟨zeroB_canonical, ?_⟩
    rw [toInt_zeroB]
    rcases Bool.or_eq_true _ _ |>.mp hz with h | h
    · rw [isZeroB_iff] at h
      have : a.toInt = 0 := (canonical_toInt_zero_iff ha).mpr h
      rw [this]
      ring
    · rw [isZeroB_iff] at h
      have : b.toInt = 0 := (canonical_toInt_zero_iff hb).mpr h
      rw [this]
      ring
  · rw [if_neg hz]
    have hza : a.digits ≠ [0] := by
      intro hc
      exact hz (by rw [Bool.or_eq_true]; exact Or.inl (isZeroB_iff.mpr hc))
    have hzb : b.digits ≠ [0] := by
      intro hc
      exact hz (by rw [Bool.or_eq_true]; exact Or.inr (isZeroB_iff.mpr hc))
    have hva : val a.digits ≠ 0 := fun hc => hza ((canonical_val_zero ha).mp hc)
    have hvb : val b.digits ≠ 0 := fun hc => hzb ((canonical_val_zero hb).mp hc)
    have hsbv := schoolbookMultiply_val a b
    have hsbvalid : ValidDigits (schoolbookMultiply a b).digits := by
      unfold schoolbookMultiply
      rw [normalizeB_digits]
      apply validDigits_removeLeadingZeros
      apply outerLoop_valid
      intro d hd
      rw [List.eq_of_mem_replicate hd]
      omega
    have hsbne : (schoolbookMultiply a b).digits ≠ [] := by
      unfold schoolbookMultiply
      rw [normalizeB_digits]
      apply removeLeadingZeros_ne_nil
      intro hc
      simp only at hc
      have h1 := outerLoop_length b.digits a.digits
        (List.replicate (a.digits.length + b.digits.length) 0)
      rw [hc] at h1
      simp only [List.length_replicate, List.length_nil] at h1
      have h2 : 1 ≤ a.digits.length := by
        cases hd : a.digits
        · exact absurd hd ha.2.1
        · simp
      omega
    have hcan : Canonical (normalizeB
        { digits := (schoolbookMultiply a b).digits
          negative := decide (a.negative ≠ b.negative) }) :=
      normalizeB_canonical hsbvalid hsbne
    refine ⟨hcan, ?_⟩
    have hvm : val (normalizeB
        { digits := (schoolbookMultiply a b).digits
          negative := decide (a.negative ≠ b.negative) }).digits =
        val a.digits * val b.digits := by
      rw [normalizeB_val]
      simp only
      exact hsbv
    have hprod : val a.digits * val b.digits ≠ 0 :=
      Nat.mul_ne_zero hva hvb
    have hflag : (normalizeB
        { digits := (schoolbookMultiply a b).digits
          negative := decide (a.negative ≠ b.negative) }).negative =
        decide (a.negative ≠ b.negative) := by
      apply normalizeB_negative_of_val_ne
      · exact hsbne
      · simp only
        rw [hsbv]
        exact hprod
    unfold BigInt.toInt
    rw [hflag, hvm]
    cases hfa : a.negative <;> cases hfb : b.negative <;> simp [hfa, hfb]

theorem normalizeB_flag_false {a : BigInt} (h : a.negative = false) :
    (normalizeB a).negative = false := by
  unfold normalizeB
  simp only
  split
  · rfl
  · exact h

theorem repSub_spec {dAbs : BigInt} (hcd : Canonical dAbs)
    (hfd : dAbs.negative = false) (hd1 : 1 ≤ val dAbs.digits) :
    ∀ (fuel : Nat) (r : BigInt), Canonical r → r.negative = false →
      val r.digits < fuel →
      Canonical (repSub dAbs fuel r).1 ∧
        (repSub dAbs fuel r).1.negative = false ∧
        val (repSub dAbs fuel r).1.digits =
          val r.digits % val dAbs.digits ∧
        (repSub dAbs fuel r).2 = val r.digits / val dAbs.digits := by
  intro fuel
  induction fuel with
  | zero => intro r _ _ h; omega
  | succ fuel ih =>
    intro r hcr hfr hlt
    rw [repSub]
    by_cases hge : geB r dAbs = true
    · rw [if_pos hge]
      have hge2 : val dAbs.digits ≤ val r.digits := by
        have := (geB_correct hcr hcd).mp hge
        rw [toInt_flag_false hfr, toInt_flag_false hfd] at this
        omega
      obtain ⟨hc1, hc2⟩ := subB_spec hcr hcd
      have hvalI : (subB r dAbs).toInt =
          (val r.digits : Int) - val dAbs.digits := by
        rw [hc2, toInt_flag_false hfr, toInt_flag_false hfd]
      have hflag : (subB r dAbs).negative = false :=
        canonical_toInt_nonneg_flag hc1 (by omega)
      have hv : val (subB r dAbs).digits =
          val r.digits - val dAbs.digits := by
        have h2 := toInt_flag_false hflag
        rw [hvalI] at h2
        omega
      obtain ⟨h1, h2, h3, h4⟩ := ih (subB r dAbs) hc1 hflag (by omega)
      refine ⟨h1, h2, ?_, ?_⟩
      · simp only
        rw [h3, hv, ← Nat.mod_eq_sub_mod hge2]
      · simp only
        rw [h4, hv]
        conv_rhs => rw [Nat.div_eq (val r.digits)]
        rw [if_pos ⟨by omega, hge2⟩]
    · rw [if_neg hge]
      have hlt2 : val r.digits < val dAbs.digits := by
        have hnot : ¬ (dAbs.toInt ≤ r.toInt) := fun hc =>
          hge ((geB_correct hcr hcd).mpr hc)
        rw [toInt_flag_false hfr, toInt_flag_false hfd] at hnot
        omega
      exact ⟨hcr, hfr, by rw [Nat.mod_eq_of_lt hlt2],
        by rw [Nat.div_eq_of_lt hlt2]⟩

theorem divLoop_spec {dAbs : BigInt} (hcd : Canonical dAbs)
    (hfd : dAbs.negative = false) (hd1 : 1 ≤ val dAbs.digits) :
    ∀ (ds : List Nat) (q r : BigInt), ValidDigits ds → Canonical r →
      r.negative = false → val r.digits < val dAbs.digits →
      q.negative = false → ValidDigits q.digits →
      Canonical (divLoop dAbs ds (q, r)).2 ∧
        (divLoop dAbs ds (q, r)).2.negative = false ∧
        val (divLoop dAbs ds (q, r)).2.digits =
          (val r.digits * 10 ^ ds.length + valM ds) % val dAbs.digits ∧
        (divLoop dAbs ds (q, r)).1.negative = false ∧
        ValidDigits (divLoop dAbs ds (q, r)).1.digits ∧
        val (divLoop dAbs ds (q, r)).1.digits =
          val q.digits * 10 ^ ds.length +
            (val r.digits * 10 ^ ds.length + valM ds) / val dAbs.digits ∧
        (divLoop dAbs ds (q, r)).1.digits.length =
          q.digits.length + ds.length := by
  intro ds
  induction ds with
  | nil =>
    intro q r _ hcr hfr hrlt hqf hqv
    rw [divLoop]
    refine ⟨hcr, hfr, ?_, hqf, hqv, ?_, ?_⟩
    · simp [valM, Nat.mod_eq_of_lt hrlt]
    · simp [valM, Nat.div_eq_of_lt hrlt]
    · simp
  | cons d rest ih =>
    intro q r hdv hcr hfr hrlt hqf hqv
    have hd : d < 10 := hdv d (List.mem_cons_self d rest)
    have hrest : ValidDigits rest := fun x hx => hdv x (List.mem_cons_of_mem d hx)
    rw [divLoop]
    simp only
    set r1 := normalizeB (BigInt.mk (d :: r.digits) r.negative) with hr1def
    have hv1 : ValidDigits (d :: r.digits) := by
      intro x hx
      rcases List.mem_cons.mp hx with h1 | h2
      · subst h1; omega
      · exact hcr.1 x h2
    have hr1c : Canonical r1 := normalizeB_canonical hv1 (by simp)
    have hr1v : val r1.digits = d + 10 * val r.digits := by
      rw [hr1def, normalizeB_val]
      rfl
    have hr1f : r1.negative = false := normalizeB_flag_false hfr
    have hr1lt : val r1.digits < 10 * val dAbs.digits := by omega
    obtain ⟨hs1, hs2, hs3, hs4⟩ :=
      repSub_spec hcd hfd hd1 (val r1.digits + 1) r1 hr1c hr1f (by omega)
    have hnle : (repSub dAbs (val r1.digits + 1) r1).2 ≤ 9 := by
      rw [hs4]
      have h9 : val r1.digits / val dAbs.digits < 10 :=
        (Nat.div_lt_iff_lt_mul (by omega)).mpr (by omega)
      omega
    have hr2lt : val (repSub dAbs (val r1.digits + 1) r1).1.digits <
        val dAbs.digits := by
      rw [hs3]
      exact Nat.mod_lt _ (by omega)
    have hqf2 : (BigInt.mk ((repSub dAbs (val r1.digits + 1) r1).2 :: q.digits)
        q.negative).negative = false := hqf
    have hqv2 : ValidDigits
        ((repSub dAbs (val r1.digits + 1) r1).2 :: q.digits) := by
      intro x hx
      rcases List.mem_cons.mp hx with h1 | h2
      · subst h1; omega
      · exact hqv x h2
    obtain ⟨t1, t2, t3, t4, t5, t6, t7⟩ := ih
      (BigInt.mk ((repSub dAbs (val r1.digits + 1) r1).2 :: q.digits)
        q.negative)
      (repSub dAbs (val r1.digits + 1) r1).1 hrest hs1 hs2 hr2lt hqf2 hqv2
    refine ⟨t1, t2, ?_, t4, t5, ?_, ?_⟩
    · rw [t3, hs3]
      generalize hA : val r1.digits / val dAbs.digits = A at *
      generalize hB : val r1.digits % val dAbs.digits = B at *
      have hAB : val dAbs.digits * A + B = val r1.digits := by
        rw [← hA, ← hB]
        exact Nat.div_add_mod _ _
      have e1 : B * 10 ^ rest.length + valM rest +
          val dAbs.digits * (A * 10 ^ rest.length) =
          val r1.digits * 10 ^ rest.length + valM rest := by
        rw [← hAB]
        ring
      have e2 : (B * 10 ^ rest.length + valM rest) % val dAbs.digits =
          (val r1.digits * 10 ^ rest.length + valM rest) % val dAbs.digits := by
        rw [← e1, Nat.add_mul_mod_self_left]
      rw [e2, hr1v]
      congr 1
      simp only [valM, List.length_cons]
      ring
    · rw [t6, hs3, hs4]
      simp only [val]
      generalize hA : val r1.digits / val dAbs.digits = A at *
      generalize hB : val r1.digits % val dAbs.digits = B at *
      have hAB : val dAbs.digits * A + B = val r1.digits := by
        rw [← hA, ← hB]
        exact Nat.div_add_mod _ _
      have e1 : B * 10 ^ rest.length + valM rest +
          val dAbs.digits * (A * 10 ^ rest.length) =
          val r1.digits * 10 ^ rest.length + valM rest := by
        rw [← hAB]
        ring
      have e2 : (val r1.digits * 10 ^ rest.length + valM rest) /
          val dAbs.digits =
          (B * 10 ^ rest.length + valM rest) /
            val dAbs.digits + A * 10 ^ rest.length := by
        rw [← e1, Nat.add_mul_div_left _ _ (by omega : 0 < val dAbs.digits)]
      have e3 : val r1.digits * 10 ^ rest.length + valM rest =
          val r.digits * 10 ^ (d :: rest).length + valM (d :: rest) := by
        rw [hr1v]
        simp only [valM, List.length_cons]
        ring
      rw [← e3, e2]
      simp only [List.length_cons]
      ring
    · rw [t7]
      simp only [List.length_cons]
      ring

theorem dwr_spec {a b : BigInt} (ha : Canonical a) (hb : Canonical b)
    (hbz : isZeroB b = false) :
    Canonical (divideWithRemainder a b).1 ∧
      Canonical (divideWithRemainder a b).2 ∧
      (divideWithRemainder a b).1.negative = false ∧
      (divideWithRemainder a b).2.negative = false ∧
      val (divideWithRemainder a b).1.digits =
        val a.digits / val b.digits ∧
      val (divideWithRemainder a b).2.digits =
        val a.digits % val b.digits := by
  have hbne : b.digits ≠ [0] := by
    intro hc
    rw [isZeroB_iff.mpr hc] at hbz
    exact Bool.noConfusion hbz
  have hbv : val b.digits ≠ 0 := fun hc => hbne ((canonical_val_zero hb).mp hc)
  unfold divideWithRemainder
  by_cases hza : isZeroB a = true
  · rw [if_pos hza]
    have hav : val a.digits = 0 := by
      rw [isZeroB_iff.mp hza]
      rfl
    rw [hav]
    refine ⟨zeroB_canonical, zeroB_canonical, rfl, rfl, ?_, ?_⟩
    · rw [Nat.zero_div]; rfl
    · rw [Nat.zero_mod]; rfl
  · rw [if_neg hza]
    simp only
    obtain ⟨habd, habf, habc⟩ := absB_spec ha
    obtain ⟨hbbd, hbbf, hbbc⟩ := absB_spec hb
    have hd1 : 1 ≤ val (absB b).digits := by
      rw [hbbd]
      omega
    have hq0f : (BigInt.mk [0] false).negative = false := rfl
    have hq0v : ValidDigits [0] := by intro d hd; simp at hd; omega
    have hr0c : Canonical (BigInt.mk [0] false) :=
      ⟨hq0v, by simp, Or.inr rfl, fun _ => rfl⟩
    have hvds : ValidDigits (absB a).digits.reverse := by
      intro d hd
      exact habc.1 d (List.mem_reverse.mp hd)
    obtain ⟨t1, t2, t3, t4, t5, t6, t7⟩ := divLoop_spec hbbc hbbf hd1
      (absB a).digits.reverse (BigInt.mk [0] false) (BigInt.mk [0] false)
      hvds hr0c rfl (by rw [hbbd]; show 0 < val b.digits; omega) hq0f hq0v
    have hvalm : valM (absB a).digits.reverse = val a.digits := by
      rw [← val_eq_valM_reverse, habd]
    have hv0 : val (BigInt.mk [0] false).digits = 0 := rfl
    have hql : 1 ≤ (divLoop (absB b) (absB a).digits.reverse
        (BigInt.mk [0] false, BigInt.mk [0] false)).1.digits.length := by
      rw [t7]
      simp
    have hqne : (divLoop (absB b) (absB a).digits.reverse
        (BigInt.mk [0] false, BigInt.mk [0] false)).1.digits ≠ [] := by
      intro hc
      rw [hc] at hql
      simp at hql
    refine ⟨normalizeB_canonical t5 hqne, t1, normalizeB_flag_false t4, t2,
      ?_, ?_⟩
    · rw [normalizeB_val, t6, hv0, hvalm, hbbd]
      simp
    · rw [t3, hv0, hvalm, hbbd]
      simp

theorem quotB_spec {a b : BigInt} (ha : Canonical a) (hb : Canonical b)
    (hbz : isZeroB b = false) :
    Canonical (quotB a b) ∧
      val (quotB a b).digits = val a.digits / val b.digits ∧
      ((quotB a b).digits ≠ [0] →
        (quotB a b).negative = decide (a.negative ≠ b.negative)) := by
  obtain ⟨h1, h2, h3, h4, h5, h6⟩ := dwr_spec ha hb hbz
  unfold quotB
  have hvd : ValidDigits (divideWithRemainder a b).1.digits := h1.1
  have hne : (divideWithRemainder a b).1.digits ≠ [] := h1.2.1
  refine ⟨normalizeB_canonical hvd hne, ?_, ?_⟩
  · rw [normalizeB_val]
    exact h5
  · intro hnz
    apply normalizeB_negative_of_val_ne
    · exact hne
    intro hc
    apply hnz
    have hvq : val (normalizeB
        (BigInt.mk (divideWithRemainder a b).1.digits
          (decide (a.negative ≠ b.negative)))).digits = 0 := by
      rw [normalizeB_val]
      exact hc
    have hcan : Canonical (normalizeB
        (BigInt.mk (divideWithRemainder a b).1.digits
          (decide (a.negative ≠ b.negative)))) :=
      normalizeB_canonical hvd hne
    exact (canonical_val_zero hcan).mp hvq

theorem remB_spec {a b : BigInt} (ha : Canonical a) (hb : Canonical b)
    (hbz : isZeroB b = false) :
    Canonical (remB a b) ∧
      val (remB a b).digits = val a.digits % val b.digits ∧
      ((remB a b).digits ≠ [0] → (remB a b).negative = a.negative) := by
  obtain ⟨h1, h2, h3, h4, h5, h6⟩ := dwr_spec ha hb hbz
  unfold remB
  have hvd : ValidDigits (divideWithRemainder a b).2.digits := h2.1
  have hne : (divideWithRemainder a b).2.digits ≠ [] := h2.2.1
  refine ⟨normalizeB_canonical hvd hne, ?_, ?_⟩
  · rw [normalizeB_val]
    exact h6
  · intro hnz
    apply normalizeB_negative_of_val_ne
    · exact hne
    intro hc
    apply hnz
    have hvq : val (normalizeB
        (BigInt.mk (divideWithRemainder a b).2.digits a.negative)).digits =
        0 := by
      rw [normalizeB_val]
      exact hc
    have hcan : Canonical (normalizeB
        (BigInt.mk (divideWithRemainder a b).2.digits a.negative)) :=
      normalizeB_canonical hvd hne
    exact (canonical_val_zero hcan).mp hvq

theorem quotB_toInt {a b : BigInt} (ha : Canonical a) (hb : Canonical b)
    (hbz : isZeroB b = false) :
    (quotB a b).toInt = if a.negative ≠ b.negative then
      -((val a.digits / val b.digits : Nat) : Int)
    else ((val a.digits / val b.digits : Nat) : Int) := by
  obtain ⟨hqc, hqv, hqs⟩ := quotB_spec ha hb hbz
  by_cases h0 : (quotB a b).digits = [0]
  · have hv0 : val a.digits / val b.digits = 0 := by
      rw [← hqv, h0]
      rfl
    have ht0 : (quotB a b).toInt = 0 := by
      rw [canonical_toInt_zero_iff hqc]
      exact h0
    rw [ht0, hv0]
    by_cases hx : a.negative ≠ b.negative <;> simp [hx]
  · have hflag := hqs h0
    unfold BigInt.toInt
    rw [hflag, hqv]
    by_cases hx : a.negative ≠ b.negative <;> simp [hx]

theorem remB_toInt {a b : BigInt} (ha : Canonical a) (hb : Canonical b)
    (hbz : isZeroB b = false) :
    (remB a b).toInt = if a.negative then
      -((val a.digits % val b.digits : Nat) : Int)
    else ((val a.digits % val b.digits : Nat) : Int) := by
  obtain ⟨hrc, hrv, hrs⟩ := remB_spec ha hb hbz
  by_cases h0 : (remB a b).digits = [0]
  · have hv0 : val a.digits % val b.digits = 0 := by
      rw [← hrv, h0]
      rfl
    have ht0 : (remB a b).toInt = 0 := by
      rw [canonical_toInt_zero_iff hrc]
      exact h0
    rw [ht0, hv0]
    by_cases hx : a.negative <;> simp [hx]
  · have hflag := hrs h0
    unfold BigInt.toInt
    rw [hflag, hrv]

theorem divmod_identity {a b : BigInt} (ha : Canonical a) (hb : Canonical b)
    (hbz : isZeroB b = false) :
    beqB (addB (mulB (quotB a b) b) (remB a b)) a = true := by
  rw [beqB_iff]
  obtain ⟨hqc, _, _⟩ := quotB_spec ha hb hbz
  obtain ⟨hrc, _, _⟩ := remB_spec ha hb hbz
  obtain ⟨hmc, hmv⟩ := mulB_spec hqc hb
  obtain ⟨hac, hav⟩ := addB_spec hmc hrc
  apply canonical_ext hac ha
  rw [hav, hmv, quotB_toInt ha hb hbz, remB_toInt ha hb hbz]
  have hdm : (val b.digits : Int) * (val a.digits / val b.digits : Nat) +
      ((val a.digits % val b.digits : Nat) : Int) = (val a.digits : Int) := by
    have := Nat.div_add_mod (val a.digits) (val b.digits)
    exact_mod_cast this
  unfold BigInt.toInt
  cases hfa : a.negative with
  | false =>
    cases hfb : b.negative with
    | false =>
      rw [if_neg (by simp)]
      simp only [Bool.false_eq_true, if_false]
      linarith
    | true =>
      rw [if_pos (by decide)]
      simp only [if_true, Bool.false_eq_true, if_false]
      linarith
  | true =>
    cases hfb : b.negative with
    | false =>
      rw [if_pos (by decide)]
      simp only [if_true, Bool.false_eq_true, if_false]
      linarith
    | true =>
      rw [if_neg (by decide)]
      simp only [if_true]
      linarith

theorem oneB_canonical : Canonical oneB := by decide

theorem twoB_canonical : Canonical twoB := by decide

theorem isZeroB_twoB : isZeroB twoB = false := rfl

theorem addB_nonneg {a b : BigInt} (ha : Canonical a) (hb : Canonical b)
    (hfa : a.negative = false) (hfb : b.negative = false) :
    Canonical (addB a b) ∧ (addB a b).negative = false ∧
      val (addB a b).digits = val a.digits + val b.digits := by
  obtain ⟨h1, h2⟩ := addB_spec ha hb
  have hge : 0 ≤ (addB a b).toInt := by
    rw [h2, toInt_flag_false hfa, toInt_flag_false hfb]
    positivity
  have hf := canonical_toInt_nonneg_flag h1 hge
  refine ⟨h1, hf, ?_⟩
  have hv := toInt_flag_false hf
  rw [h2, toInt_flag_false hfa, toInt_flag_false hfb] at hv
  exact_mod_cast hv.symm

theorem subB_nonneg {a b : BigInt} (ha : Canonical a) (hb : Canonical b)
    (hfa : a.negative = false) (hfb : b.negative = false)
    (hle : val b.digits ≤ val a.digits) :
    Canonical (subB a b) ∧ (subB a b).negative = false ∧
      val (subB a b).digits = val a.digits - val b.digits := by
  obtain ⟨h1, h2⟩ := subB_spec ha hb
  have hge : 0 ≤ (subB a b).toInt := by
    rw [h2, toInt_flag_false hfa, toInt_flag_false hfb]
    omega
  have hf := canonical_toInt_nonneg_flag h1 hge
  refine ⟨h1, hf, ?_⟩
  have hv := toInt_flag_false hf
  rw [h2, toInt_flag_false hfa, toInt_flag_false hfb] at hv
  omega

theorem mulB_nonneg {a b : BigInt} (ha : Canonical a) (hb : Canonical b)
    (hfa : a.negative = false) (hfb : b.negative = false) :
    Canonical (mulB a b) ∧ (mulB a b).negative = false ∧
      val (mulB a b).digits = val a.digits * val b.digits := by
  obtain ⟨h1, h2⟩ := mulB_spec ha hb
  have hge : 0 ≤ (mulB a b).toInt := by
    rw [h2, toInt_flag_false hfa, toInt_flag_false hfb]
    positivity
  have hf := canonical_toInt_nonneg_flag h1 hge
  refine ⟨h1, hf, ?_⟩
  have hv := toInt_flag_false hf
  rw [h2, toInt_flag_false hfa, toInt_flag_false hfb] at hv
  exact_mod_cast hv.symm

theorem quotB_flag_false {a b : BigInt} (ha : Canonical a) (hb : Canonical b)
    (hbz : isZeroB b = false) (hfa : a.negative = false)
    (hfb : b.negative = false) : (quotB a b).negative = false := by
  obtain ⟨h1, h2, h3⟩ := quotB_spec ha hb hbz
  by_cases h0 : (quotB a b).digits = [0]
  · exact h1.2.2.2 h0
  · rw [h3 h0, hfa, hfb]
    simp

theorem remB_flag_of_false {a b : BigInt} (ha : Canonical a)
    (hb : Canonical b) (hbz : isZeroB b = false)
    (hfa : a.negative = false) : (remB a b).negative = false := by
  obtain ⟨h1, h2, h3⟩ := remB_spec ha hb hbz
  by_cases h0 : (remB a b).digits = [0]
  · exact h1.2.2.2 h0
  · rw [h3 h0, hfa]

/-- Half-sum step used by the sqrt binary search: everything about
mid = (left + right) / TWO. -/
theorem midB_spec {left right : BigInt} (hcl : Canonical left)
    (hcr : Canonical right) (hfl : left.negative = false)
    (hfr : right.negative = false) :
    Canonical (quotB (addB left right) twoB) ∧
      (quotB (addB left right) twoB).negative = false ∧
      val (quotB (addB left right) twoB).digits =
        (val left.digits + val right.digits) / 2 := by
  obtain ⟨hac, haf, hav⟩ := addB_nonneg hcl hcr hfl hfr
  obtain ⟨h1, h2, _⟩ := quotB_spec hac twoB_canonical isZeroB_twoB
  exact ⟨h1, quotB_flag_false hac twoB_canonical isZeroB_twoB haf rfl,
    by rw [h2, hav]; rfl⟩

/-- Invariant proof for the sqrt binary-search loop. -/
theorem sqrtLoop_spec {n : BigInt} (hcn : Canonical n)
    (hfn : n.negative = false) :
    ∀ (fuel : Nat) (left right result : BigInt),
      Canonical left → left.negative = false →
      Canonical right → right.negative = false →
      Canonical result → result.negative = false →
      1 ≤ val left.digits →
      val result.digits * val result.digits ≤ val n.digits →
      val n.digits < (val right.digits + 1) * (val right.digits + 1) →
      ((2 ≤ val left.digits ∧ val result.digits = val left.digits - 1) ∨
        (val left.digits = 1 ∧ val result.digits = 1)) →
      val right.digits + 1 - val left.digits < fuel →
      Canonical (sqrtLoop n fuel left right result) ∧
        (sqrtLoop n fuel left right result).negative = false ∧
        val (sqrtLoop n fuel left right result).digits *
          val (sqrtLoop n fuel left right result).digits ≤ val n.digits ∧
        val n.digits < (val (sqrtLoop n fuel left right result).digits + 1) *
          (val (sqrtLoop n fuel left right result).digits + 1) := by
  intro fuel
  induction fuel with
  | zero =>
    intro left right result hcl hfl hcr hfr hcres hfres hl1 hres hright hdisj
      hfuel
    -- reaching fuel 0 needs right + 1 - left < 0, impossible; but the exit
    -- condition may already hold, in which case the invariant suffices
    omega
  | succ fuel ih =>
    intro left right result hcl hfl hcr hfr hcres hfres hl1 hres hright hdisj
      hfuel
    rw [sqrtLoop]
    by_cases hlr : leB left right = true
    · rw [if_pos hlr]
      have hlr2 : val left.digits ≤ val right.digits := by
        have := (leB_correct hcl hcr).mp hlr
        rw [toInt_flag_false hfl, toInt_flag_false hfr] at this
        omega
      obtain ⟨hmc, hmf, hmv⟩ := midB_spec hcl hcr hfl hfr
      have hmlow : val left.digits ≤
          val (quotB (addB left right) twoB).digits := by
        rw [hmv]
        have : val left.digits = (val left.digits + val left.digits) / 2 := by
          omega
        rw [this]
        exact Nat.div_le_div_right (by omega)
      have hmhigh : val (quotB (addB left right) twoB).digits ≤
          val right.digits := by
        rw [hmv]
        omega
      obtain ⟨hsqc, hsqf, hsqv⟩ := mulB_nonneg hmc hmc hmf hmf
      by_cases hsq : leB (mulB (quotB (addB left right) twoB)
          (quotB (addB left right) twoB)) n = true
      · rw [if_pos hsq]
        have hsq2 : val (quotB (addB left right) twoB).digits *
            val (quotB (addB left right) twoB).digits ≤ val n.digits := by
          have := (leB_correct hsqc hcn).mp hsq
          rw [toInt_flag_false hsqf, toInt_flag_false hfn, hsqv] at this
          exact_mod_cast this
        obtain ⟨hlc2, hlf2, hlv2⟩ :=
          addB_nonneg hmc oneB_canonical hmf rfl
        apply ih _ _ _ hlc2 hlf2 hcr hfr hmc hmf
        · rw [hlv2]
          have hv1 : val oneB.digits = 1 := rfl
          omega
        · exact hsq2
        · exact hright
        · left
          rw [hlv2]
          have hv1 : val oneB.digits = 1 := rfl
          rw [hv1]
          omega
        · rw [hlv2]
          have hv1 : val oneB.digits = 1 := rfl
          rw [hv1]
          omega
      · rw [if_neg hsq]
        have hsq2 : val n.digits < val (quotB (addB left right) twoB).digits *
            val (quotB (addB left right) twoB).digits := by
          have hnot : ¬ ((mulB (quotB (addB left right) twoB)
              (quotB (addB left right) twoB)).toInt ≤ n.toInt) := fun hc =>
            hsq ((leB_correct hsqc hcn).mpr hc)
          rw [toInt_flag_false hsqf, toInt_flag_false hfn, hsqv] at hnot
          exact_mod_cast Int.not_le.mp hnot
        have hm1 : 1 ≤ val (quotB (addB left right) twoB).digits := by omega
        obtain ⟨hrc2, hrf2, hrv2⟩ :=
          subB_nonneg hmc oneB_canonical hmf rfl (by
            show val oneB.digits ≤ _
            have hv1 : val oneB.digits = 1 := rfl
            rw [hv1]
            omega)
        apply ih _ _ _ hcl hfl hrc2 hrf2 hcres hfres hl1 hres
        · rw [hrv2]
          show val n.digits < (_ - val oneB.digits + 1) * _
          have hv1 : val oneB.digits = 1 := rfl
          rw [hv1]
          have : val (quotB (addB left right) twoB).digits - 1 + 1 =
              val (quotB (addB left right) twoB).digits := by omega
          rw [this]
          exact hsq2
        · exact hdisj
        · rw [hrv2]
          show _ - val oneB.digits + 1 - _ < fuel
          have hv1 : val oneB.digits = 1 := rfl
          rw [hv1]
          omega
    · rw [if_neg hlr]
      have hlr2 : val right.digits < val left.digits := by
        have hnot : ¬ (left.toInt ≤ right.toInt) := fun hc =>
          hlr ((leB_correct hcl hcr).mpr hc)
        rw [toInt_flag_false hfl, toInt_flag_false hfr] at hnot
        exact_mod_cast Int.not_le.mp hnot
      refine ⟨hcres, hfres, hres, ?_⟩
      rcases hdisj with ⟨h2l, hres2⟩ | ⟨h1l, hres2⟩
      · have hmon : (val right.digits + 1) * (val right.digits + 1) ≤
            (val result.digits + 1) * (val result.digits + 1) := by
          have : val right.digits + 1 ≤ val result.digits + 1 := by omega
          exact Nat.mul_le_mul this this
        omega
      · have h0 : val right.digits = 0 := by omega
        rw [hres2] at hres
        rw [h0] at hright
        norm_num at hright hres
        omega

theorem sqrtB_spec {n : BigInt} (hcn : Canonical n) :
    (n.toInt < 0 → sqrtB n = .error .invalidInput) ∧
      (0 ≤ n.toInt → ∃ r, sqrtB n = .ok r ∧ Canonical r ∧
        r.toInt * r.toInt ≤ n.toInt ∧
        n.toInt < (r.toInt + 1) * (r.toInt + 1)) := by
  have hzc : Canonical zeroB := zeroB_canonical
  constructor
  · intro hneg
    unfold sqrtB
    rw [if_pos ((ltB_correct hcn hzc).mpr (by rw [toInt_zeroB]; exact hneg))]
  · intro hge
    have hfn : n.negative = false := canonical_toInt_nonneg_flag hcn hge
    have hlt : ltB n zeroB = false := by
      rw [← Bool.not_eq_true]
      intro hc
      have := (ltB_correct hcn hzc).mp hc
      rw [toInt_zeroB] at this
      omega
    unfold sqrtB
    rw [hlt]
    rw [if_neg (by simp)]
    have htn : n.toInt = (val n.digits : Int) := toInt_flag_false hfn
    by_cases hle : leB n oneB = true
    · rw [if_pos hle]
      have hle2 : val n.digits ≤ 1 := by
        have := (leB_correct hcn oneB_canonical).mp hle
        rw [htn] at this
        have h1 : oneB.toInt = 1 := rfl
        rw [h1] at this
        exact_mod_cast this
      refine ⟨n, rfl, hcn, ?_, ?_⟩
      · rw [htn]
        interval_cases h : val n.digits <;> simp
      · rw [htn]
        interval_cases h : val n.digits <;> norm_num
    · rw [if_neg hle]
      have hgt2 : 2 ≤ val n.digits := by
        have hnot : ¬ (n.toInt ≤ oneB.toInt) := fun hc =>
          hle ((leB_correct hcn oneB_canonical).mpr hc)
        have h1 : oneB.toInt = 1 := rfl
        rw [htn, h1] at hnot
        omega
      obtain ⟨t1, t2, t3, t4⟩ := sqrtLoop_spec hcn hfn
        (val n.digits + 2) oneB n oneB oneB_canonical rfl hcn hfn
        oneB_canonical rfl (by rw [show val oneB.digits = 1 from rfl])
        (by rw [show val oneB.digits = 1 from rfl]; omega)
        (by nlinarith [hgt2])
        (Or.inr ⟨rfl, rfl⟩)
        (by rw [show val oneB.digits = 1 from rfl]; omega)
      refine ⟨sqrtLoop n (val n.digits + 2) oneB n oneB, rfl, t1, ?_, ?_⟩
      · rw [toInt_flag_false t2, htn]
        exact_mod_cast t3
      · rw [toInt_flag_false t2, htn]
        exact_mod_cast t4

theorem divOutN_spec (p : Nat) (hp : 2 ≤ p) : ∀ (m : Nat), 0 < m →
    (divOutN p m).1 * p ^ (divOutN p m).2 = m ∧
    ¬ p ∣ (divOutN p m).1 ∧ 0 < (divOutN p m).1 := by
  intro m
  induction m using Nat.strong_induction_on with
  | _ m ih =>
    intro hm
    rw [divOutN]
    by_cases h : 2 ≤ p ∧ 0 < m ∧ m % p = 0
    · rw [dif_pos h]
      have hdvd : p ∣ m := Nat.dvd_of_mod_eq_zero h.2.2
      have hmp : 0 < m / p := Nat.div_pos (Nat.le_of_dvd hm hdvd) (by omega)
      have hlt : m / p < m := Nat.div_lt_self hm (by omega)
      obtain ⟨e1, e2, e3⟩ := ih (m / p) hlt hmp
      simp only
      refine ⟨?_, e2, e3⟩
      rw [pow_succ, ← Nat.mul_assoc, e1]
      exact Nat.div_mul_cancel hdvd
    · rw [dif_neg h]
      simp only
      have hnd : ¬ p ∣ m := by
        intro hc
        exact h ⟨hp, hm, Nat.eq_zero_of_dvd_of_lt hc |> fun _ =>
          Nat.mod_eq_zero_of_dvd hc⟩
      exact ⟨by ring, hnd, hm⟩

theorem divOutN_count_pos {p m : Nat} (hp : 2 ≤ p) (hm : 0 < m)
    (hdvd : p ∣ m) : 0 < (divOutN p m).2 := by
  rw [divOutN, dif_pos ⟨hp, hm, Nat.mod_eq_zero_of_dvd hdvd⟩]
  simp

theorem divOutN_count_zero {p m : Nat} (hnd : ¬ p ∣ m) :
    (divOutN p m).2 = 0 := by
  rw [divOutN]
  rw [dif_neg]
  intro ⟨_, _, h3⟩
  exact hnd (Nat.dvd_of_mod_eq_zero h3)

theorem oddPhase_spec (s : Nat) : ∀ (k i m : Nat), s + 1 - i ≤ k →
    0 < m → 3 ≤ i → i % 2 = 1 → NoSmallDiv i m →
    ((oddPhase s i m).1.map (fun pk => pk.1 ^ pk.2)).prod *
        (oddPhase s i m).2 = m ∧
      (∀ pk ∈ (oddPhase s i m).1,
        i ≤ pk.1 ∧ pk.1 ≤ s ∧ 0 < pk.2 ∧ Nat.Prime pk.1) ∧
      List.Pairwise (· < ·) ((oddPhase s i m).1.map (fun pk => pk.1)) ∧
      0 < (oddPhase s i m).2 ∧
      NoSmallDiv (max i (s + 1)) (oddPhase s i m).2 ∧
      (oddPhase s i m).2 ∣ m := by
  intro k
  induction k with
  | zero =>
    intro i m hk hm hi3 hodd hinv
    have hgt : ¬ i ≤ s := by omega
    rw [oddPhase, if_neg hgt]
    refine ⟨by simp, ?_, by simp, hm, ?_, dvd_refl m⟩
    · intro pk hpk
      cases hpk
    · have hmax : max i (s + 1) = i := by omega
      rw [hmax]
      exact hinv
  | succ k ih =>
    intro i m hk hm hi3 hodd hinv
    by_cases hi : i ≤ s
    · rw [oddPhase, if_pos hi]
      simp only
      obtain ⟨hd1, hd2, hd3⟩ := divOutN_spec i (by omega) m hm
      have hdvdm : (divOutN i m).1 ∣ m := Dvd.intro _ hd1
      have hinv2 : NoSmallDiv (i + 2) (divOutN i m).1 := by
        intro d hd2le hdlt hddvd
        rcases Nat.lt_or_ge d i with hcase | hcase
        · exact hinv d hd2le hcase (hddvd.trans hdvdm)
        · rcases Nat.eq_or_lt_of_le hcase with hcase2 | hcase2
          · subst hcase2
            exact hd2 hddvd
          · have hdi1 : d = i + 1 := by omega
            have h2d : 2 ∣ d := by omega
            exact hinv 2 (by omega) (by omega)
              ((h2d.trans hddvd).trans hdvdm)
      obtain ⟨t1, t2, t3, t4, t5, t6⟩ := ih (i + 2) (divOutN i m).1
        (by omega) hd3 (by omega) (by omega) hinv2
      have hiprime : 0 < (divOutN i m).2 → Nat.Prime i := by
        intro hcpos
        have hidvd : i ∣ m := by
          by_contra hc
          rw [divOutN_count_zero hc] at hcpos
          omega
        rw [Nat.prime_def_minFac]
        refine ⟨by omega, ?_⟩
        have hq1 := Nat.minFac_dvd i
        have hq2 : 2 ≤ i.minFac := (Nat.minFac_prime (by omega : i ≠ 1)).two_le
        have hq3 : i.minFac ≤ i := Nat.minFac_le (by omega)
        rcases Nat.eq_or_lt_of_le hq3 with h | h
        · exact h
        · exact absurd (hq1.trans hidvd) (hinv i.minFac hq2 h)
      by_cases hc : 0 < (divOutN i m).2
      · rw [if_pos hc]
        refine ⟨?_, ?_, ?_, t4, ?_, t6.trans hdvdm⟩
        · simp only [List.map_cons, List.prod_cons]
          rw [Nat.mul_assoc, t1, Nat.mul_comm (i ^ (divOutN i m).2), hd1]
        · intro pk hpk
          rcases List.mem_cons.mp hpk with h | h
          · rw [h]
            exact ⟨le_rfl, hi, hc, hiprime hc⟩
          · obtain ⟨u1, u2, u3, u4⟩ := t2 pk h
            exact ⟨by omega, u2, u3, u4⟩
        · simp only [List.map_cons]
          refine List.Pairwise.cons ?_ t3
          intro x hx
          rw [List.mem_map] at hx
          obtain ⟨pk, hpk, hval⟩ := hx
          obtain ⟨u1, _, _, _⟩ := t2 pk hpk
          omega
        · intro d hdle hdlt
          apply t5 d hdle
          omega
      · rw [if_neg hc]
        have hc0 : (divOutN i m).2 = 0 := by omega
        have hm' : (divOutN i m).1 = m := by
          rw [hc0] at hd1
          simpa using hd1
        refine ⟨by rw [t1, hm'], ?_, t3, t4, ?_, t6.trans hdvdm⟩
        · intro pk hpk
          obtain ⟨u1, u2, u3, u4⟩ := t2 pk hpk
          exact ⟨by omega, u2, u3, u4⟩
        · intro d hdle hdlt
          apply t5 d hdle
          omega
    · rw [oddPhase, if_neg hi]
      refine ⟨by simp, ?_, by simp, hm, ?_, dvd_refl m⟩
      · intro pk hpk
        cases hpk
      · have hmax : max i (s + 1) = i := by omega
        rw [hmax]
        exact hinv

/-- Nat-level facts about the complete trial-division factorization with
square-root bound s computed once from the cofactor after the 2-phase. -/
theorem factorFacts {m s : Nat} (hm : 2 ≤ m)
    (_hs1 : s * s ≤ (divOutN 2 m).1)
    (hs2 : (divOutN 2 m).1 < (s + 1) * (s + 1)) :
    (((if 0 < (divOutN 2 m).2 then [(2, (divOutN 2 m).2)] else []) ++
        (oddPhase s 3 (divOutN 2 m).1).1 ++
        (if 1 < (oddPhase s 3 (divOutN 2 m).1).2 then
          [((oddPhase s 3 (divOutN 2 m).1).2, 1)] else [])).map
        (fun pk : Nat × Nat => pk.1 ^ pk.2)).prod = m ∧
      (∀ pk : Nat × Nat,
        pk ∈ (if 0 < (divOutN 2 m).2 then [(2, (divOutN 2 m).2)] else []) ++
        (oddPhase s 3 (divOutN 2 m).1).1 ++
        (if 1 < (oddPhase s 3 (divOutN 2 m).1).2 then
          [((oddPhase s 3 (divOutN 2 m).1).2, 1)] else []) →
        0 < pk.2 ∧ Nat.Prime pk.1) ∧
      List.Pairwise (· < ·)
        (((if 0 < (divOutN 2 m).2 then [(2, (divOutN 2 m).2)] else []) ++
          (oddPhase s 3 (divOutN 2 m).1).1 ++
          (if 1 < (oddPhase s 3 (divOutN 2 m).1).2 then
            [((oddPhase s 3 (divOutN 2 m).1).2, 1)] else [])).map
          (fun pk : Nat × Nat => pk.1)) := by
  obtain ⟨hd1, hd2, hd3⟩ := divOutN_spec 2 le_rfl m (by omega)
  have hinv : NoSmallDiv 3 (divOutN 2 m).1 := by
    intro d hdle hdlt
    have : d = 2 := by omega
    rw [this]
    exact hd2
  obtain ⟨t1, t2, t3, t4, t5, t6⟩ := oddPhase_spec s (s + 1) 3 (divOutN 2 m).1
    (by omega) hd3 le_rfl rfl hinv
  have hresid := t5
  -- residual primality and size, when the residual exceeds 1
  have hResPrime : 1 < (oddPhase s 3 (divOutN 2 m).1).2 →
      Nat.Prime (oddPhase s 3 (divOutN 2 m).1).2 ∧
      s < (oddPhase s 3 (divOutN 2 m).1).2 ∧
      2 < (oddPhase s 3 (divOutN 2 m).1).2 := by
    intro hgt1
    have hq1 := Nat.minFac_dvd (oddPhase s 3 (divOutN 2 m).1).2
    have hqprime := Nat.minFac_prime (by omega :
      (oddPhase s 3 (divOutN 2 m).1).2 ≠ 1)
    have hq2 : 2 ≤ (oddPhase s 3 (divOutN 2 m).1).2.minFac := hqprime.two_le
    have hqle : (oddPhase s 3 (divOutN 2 m).1).2.minFac ≤
        (oddPhase s 3 (divOutN 2 m).1).2 := Nat.minFac_le (by omega)
    have hqbig : ¬ ((oddPhase s 3 (divOutN 2 m).1).2.minFac < max 3 (s + 1)) := by
      intro hc
      exact t5 _ hq2 hc hq1
    have hqgts : s < (oddPhase s 3 (divOutN 2 m).1).2.minFac := by omega
    have hprime : Nat.Prime (oddPhase s 3 (divOutN 2 m).1).2 := by
      by_contra hcomp
      have hsq := Nat.minFac_sq_le_self (by omega) hcomp
      have hle1 : (oddPhase s 3 (divOutN 2 m).1).2 ≤ (divOutN 2 m).1 :=
        Nat.le_of_dvd hd3 t6
      have : (s + 1) * (s + 1) ≤
          (oddPhase s 3 (divOutN 2 m).1).2.minFac *
            (oddPhase s 3 (divOutN 2 m).1).2.minFac := by
        have := hqgts
        exact Nat.mul_le_mul (by omega) (by omega)
      have hsq2 : (oddPhase s 3 (divOutN 2 m).1).2.minFac ^ 2 =
          (oddPhase s 3 (divOutN 2 m).1).2.minFac *
            (oddPhase s 3 (divOutN 2 m).1).2.minFac := by ring
      omega
    have h2notdvd : (oddPhase s 3 (divOutN 2 m).1).2 ≠ 2 := by
      intro hc
      have hmv := t6
      rw [hc] at hmv
      exact hd2 hmv
    exact ⟨hprime, by omega, by
      have := hprime.two_le
      omega⟩
  refine ⟨?_, ?_, ?_⟩
  · rw [List.map_append, List.map_append, List.prod_append, List.prod_append]
    have hbase : ((if 0 < (divOutN 2 m).2 then [(2, (divOutN 2 m).2)]
        else []).map (fun pk => pk.1 ^ pk.2)).prod = 2 ^ (divOutN 2 m).2 := by
      by_cases hc : 0 < (divOutN 2 m).2
      · rw [if_pos hc]
        simp
      · rw [if_neg hc]
        have : (divOutN 2 m).2 = 0 := by omega
        rw [this]
        simp
    have hres : ((if 1 < (oddPhase s 3 (divOutN 2 m).1).2 then
        [((oddPhase s 3 (divOutN 2 m).1).2, 1)] else []).map
        (fun pk => pk.1 ^ pk.2)).prod =
        (oddPhase s 3 (divOutN 2 m).1).2 := by
      by_cases hc : 1 < (oddPhase s 3 (divOutN 2 m).1).2
      · rw [if_pos hc]
        simp
      · rw [if_neg hc]
        have : (oddPhase s 3 (divOutN 2 m).1).2 = 1 := by omega
        rw [this]
        simp
    rw [hbase, hres, Nat.mul_assoc, t1, Nat.mul_comm]
    exact hd1
  · intro pk hpk
    rcases List.mem_append.mp hpk with hpk2 | hpk2
    · rcases List.mem_append.mp hpk2 with hpk3 | hpk3
      · by_cases hc : 0 < (divOutN 2 m).2
        · rw [if_pos hc] at hpk3
          simp at hpk3
          rw [hpk3]
          exact ⟨hc, Nat.prime_two⟩
        · rw [if_neg hc] at hpk3
          cases hpk3
      · obtain ⟨_, _, u3, u4⟩ := t2 pk hpk3
        exact ⟨u3, u4⟩
    · by_cases hc : 1 < (oddPhase s 3 (divOutN 2 m).1).2
      · rw [if_pos hc] at hpk2
        simp at hpk2
        obtain ⟨hp, _, _⟩ := hResPrime hc
        rw [hpk2]
        exact ⟨by omega, hp⟩
      · rw [if_neg hc] at hpk2
        cases hpk2
  · rw [List.map_append, List.map_append]
    rw [List.pairwise_append]
    refine ⟨?_, ?_, ?_⟩
    · rw [List.pairwise_append]
      refine ⟨?_, t3, ?_⟩
      · by_cases hc : 0 < (divOutN 2 m).2
        · rw [if_pos hc]
          simp
        · rw [if_neg hc]
          simp
      · intro x hx y hy
        by_cases hc : 0 < (divOutN 2 m).2
        · rw [if_pos hc] at hx
          simp at hx
          rw [List.mem_map] at hy
          obtain ⟨pk, hpk, hv⟩ := hy
          obtain ⟨u1, _, _, _⟩ := t2 pk hpk
          omega
        · rw [if_neg hc] at hx
          cases hx
    · by_cases hc : 1 < (oddPhase s 3 (divOutN 2 m).1).2
      · rw [if_pos hc]
        simp
      · rw [if_neg hc]
        simp
    · intro x hx y hy
      by_cases hc : 1 < (oddPhase s 3 (divOutN 2 m).1).2
      · rw [if_pos hc] at hy
        simp at hy
        obtain ⟨_, hgs, hg2⟩ := hResPrime hc
        rcases List.mem_append.mp hx with hx2 | hx2
        · by_cases hc2 : 0 < (divOutN 2 m).2
          · rw [if_pos hc2] at hx2
            simp at hx2
            omega
          · rw [if_neg hc2] at hx2
            cases hx2
        · rw [List.mem_map] at hx2
          obtain ⟨pk, hpk, hv⟩ := hx2
          obtain ⟨_, u2, _, _⟩ := t2 pk hpk
          omega
      · rw [if_neg hc] at hy
        cases hy

theorem isZeroB_false_of_val_pos {a : BigInt} (ha : Canonical a)
    (hv : 0 < val a.digits) : isZeroB a = false := by
  cases hz : isZeroB a with
  | false => rfl
  | true =>
    rw [isZeroB_iff] at hz
    have := (canonical_val_zero ha).mpr hz
    omega

theorem beqB_zeroB_iff {a : BigInt} (ha : Canonical a) :
    beqB a zeroB = true ↔ val a.digits = 0 := by
  rw [beqB_iff]
  constructor
  · intro h
    rw [h]
    rfl
  · intro h
    have hd := (canonical_val_zero ha).mp h
    have hf := ha.2.2.2 hd
    have hz : zeroB = BigInt.mk [0] false := rfl
    rw [hz]
    cases a with
    | mk d n =>
      simp only at hd hf
      rw [hd, hf]

theorem divOutN_count_le {p m : Nat} (hp : 2 ≤ p) (hm : 0 < m) :
    (divOutN p m).2 < m + 1 := by
  obtain ⟨e1, e2, e3⟩ := divOutN_spec p hp m hm
  have h1 : p ^ (divOutN p m).2 ≤ m := by
    calc p ^ (divOutN p m).2 ≤ (divOutN p m).1 * p ^ (divOutN p m).2 :=
          Nat.le_mul_of_pos_left _ e3
    _ = m := e1
  have h2 : 2 ^ (divOutN p m).2 ≤ p ^ (divOutN p m).2 :=
    Nat.pow_le_pow_left hp _
  have h3 : (divOutN p m).2 < 2 ^ (divOutN p m).2 := Nat.lt_two_pow _
  omega

/-- The in-factorization square-root core computes the floor square root of
any canonical non-negative input. -/
theorem sqrtCore_spec {n : BigInt} (hcn : Canonical n)
    (hfn : n.negative = false) :
    Canonical (sqrtCore n) ∧ (sqrtCore n).negative = false ∧
      val (sqrtCore n).digits * val (sqrtCore n).digits ≤ val n.digits ∧
      val n.digits <
        (val (sqrtCore n).digits + 1) * (val (sqrtCore n).digits + 1) := by
  unfold sqrtCore
  by_cases hle : leB n oneB = true
  · rw [if_pos hle]
    have hle2 : val n.digits ≤ 1 := by
      have := (leB_correct hcn oneB_canonical).mp hle
      rw [toInt_flag_false hfn] at this
      have h1 : oneB.toInt = 1 := rfl
      rw [h1] at this
      exact_mod_cast this
    refine ⟨hcn, hfn, ?_, ?_⟩ <;> interval_cases h : val n.digits <;> norm_num
  · rw [if_neg hle]
    have hgt2 : 2 ≤ val n.digits := by
      have hnot : ¬ (n.toInt ≤ oneB.toInt) := fun hc =>
        hle ((leB_correct hcn oneB_canonical).mpr hc)
      have h1 : oneB.toInt = 1 := rfl
      rw [toInt_flag_false hfn, h1] at hnot
      omega
    exact sqrtLoop_spec hcn hfn (val n.digits + 2) oneB n oneB
      oneB_canonical rfl hcn hfn oneB_canonical rfl
      (by rw [show val oneB.digits = 1 from rfl])
      (by rw [show val oneB.digits = 1 from rfl]; omega)
      (by nlinarith [hgt2])
      (Or.inr ⟨rfl, rfl⟩)
      (by rw [show val oneB.digits = 1 from rfl]; omega)

/-- The BigInt divide-out loop computes the Nat-level divide-out, given
enough fuel. -/
theorem divOutLoop_sim {p : BigInt} (hcp : Canonical p)
    (hfp : p.negative = false) (hp2 : 2 ≤ val p.digits) :
    ∀ (fuel : Nat) (num : BigInt), Canonical num → num.negative = false →
      0 < val num.digits →
      (divOutN (val p.digits) (val num.digits)).2 < fuel →
      Canonical (divOutLoop p fuel num).1 ∧
        (divOutLoop p fuel num).1.negative = false ∧
        val (divOutLoop p fuel num).1.digits =
          (divOutN (val p.digits) (val num.digits)).1 ∧
        (divOutLoop p fuel num).2 =
          (divOutN (val p.digits) (val num.digits)).2 := by
  have hpz : isZeroB p = false := isZeroB_false_of_val_pos hcp (by omega)
  intro fuel
  induction fuel with
  | zero =>
    intro num hcn hfn hn hfuel
    omega
  | succ fuel ih =>
    intro num hcn hfn hn hfuel
    rw [divOutLoop]
    obtain ⟨hrc, hrv, _⟩ := remB_spec hcn hcp hpz
    by_cases hdv : val num.digits % val p.digits = 0
    · have hbeq : beqB (remB num p) zeroB = true := by
        rw [beqB_zeroB_iff hrc, hrv]
        exact hdv
      rw [hbeq, if_pos rfl]
      obtain ⟨hqc, hqv, _⟩ := quotB_spec hcn hcp hpz
      have hqf : (quotB num p).negative = false :=
        quotB_flag_false hcn hcp hpz hfn hfp
      have hdvd : val p.digits ∣ val num.digits :=
        Nat.dvd_of_mod_eq_zero hdv
      have hqpos : 0 < val num.digits / val p.digits :=
        Nat.div_pos (Nat.le_of_dvd hn hdvd) (by omega)
      have hstep : divOutN (val p.digits) (val num.digits) =
          ((divOutN (val p.digits) (val num.digits / val p.digits)).1,
           (divOutN (val p.digits) (val num.digits / val p.digits)).2 + 1) := by
        rw [divOutN, dif_pos ⟨hp2, hn, hdv⟩]
      rw [hstep] at hfuel ⊢
      obtain ⟨u1, u2, u3, u4⟩ := ih (quotB num p) hqc hqf
        (by rw [hqv]; exact hqpos) (by rw [hqv]; omega)
      rw [hqv] at u3 u4
      exact ⟨u1, u2, u3, by simp only [u4]⟩
    · have hbeq : beqB (remB num p) zeroB = false := by
        rw [← Bool.not_eq_true]
        rw [beqB_zeroB_iff hrc, hrv]
        exact hdv
      rw [hbeq]
      rw [if_neg (by simp)]
      have hstep : divOutN (val p.digits) (val num.digits) =
          (val num.digits, 0) := by
        rw [divOutN, dif_neg]
        intro ⟨_, _, h3⟩
        exact hdv h3
      rw [hstep]
      exact ⟨hcn, hfn, rfl, rfl⟩

/-- The BigInt odd-divisor loop computes the Nat-level odd phase, given
enough fuel; all emitted factors are canonical and non-negative. -/
theorem oddLoop_sim {sq : BigInt} (hcs : Canonical sq)
    (hfs : sq.negative = false) :
    ∀ (fuel : Nat) (i num : BigInt), Canonical i → i.negative = false →
      Canonical num → num.negative = false →
      0 < val num.digits → 3 ≤ val i.digits →
      val sq.digits + 1 - val i.digits ≤ 2 * fuel →
      ((oddLoop sq fuel i num).1.map (fun pk => (val pk.1.digits, pk.2)) =
          (oddPhase (val sq.digits) (val i.digits) (val num.digits)).1) ∧
        (∀ pk ∈ (oddLoop sq fuel i num).1,
          Canonical pk.1 ∧ pk.1.negative = false) ∧
        Canonical (oddLoop sq fuel i num).2 ∧
        (oddLoop sq fuel i num).2.negative = false ∧
        val (oddLoop sq fuel i num).2.digits =
          (oddPhase (val sq.digits) (val i.digits) (val num.digits)).2 := by
  intro fuel
  induction fuel with
  | zero =>
    intro i num hci hfi hcn hfn hn hi3 hfuel
    have hgt : ¬ (val i.digits ≤ val sq.digits) := by omega
    rw [oddLoop, oddPhase, if_neg hgt]
    refine ⟨rfl, ?_, hcn, hfn, rfl⟩
    intro pk hpk
    cases hpk
  | succ fuel ih =>
    intro i num hci hfi hcn hfn hn hi3 hfuel
    rw [oddLoop]
    by_cases hle : leB i sq = true
    · rw [if_pos hle]
      have hle2 : val i.digits ≤ val sq.digits := by
        have := (leB_correct hci hcs).mp hle
        rw [toInt_flag_false hfi, toInt_flag_false hfs] at this
        exact_mod_cast this
      rw [oddPhase, if_pos hle2]
      simp only
      obtain ⟨d1, d2, d3, d4⟩ := divOutLoop_sim hci hfi (by omega)
        (val num.digits + 1) num hcn hfn hn
        (divOutN_count_le (by omega) hn)
      obtain ⟨e1, e2, e3⟩ := divOutN_spec (val i.digits) (by omega)
        (val num.digits) hn
      obtain ⟨a1, a2, a3⟩ := addB_nonneg hci twoB_canonical hfi rfl
      have ha3 : val (addB i twoB).digits = val i.digits + 2 := by
        rw [a3]
        rfl
      have hnp : 0 < val (divOutLoop i (val num.digits + 1) num).1.digits := by
        rw [d3]
        exact e3
      have hi3m : 3 ≤ val (addB i twoB).digits := by
        rw [ha3]
        omega
      have hfm : val sq.digits + 1 - val (addB i twoB).digits ≤ 2 * fuel := by
        rw [ha3]
        omega
      obtain ⟨u1, u2, u3, u4, u5⟩ := ih (addB i twoB)
        (divOutLoop i (val num.digits + 1) num).1 a1 a2 d1 d2 hnp hi3m hfm
      rw [d3, ha3] at u1 u5
      refine ⟨?_, ?_, u3, u4, u5⟩
      · rw [d4]
        by_cases hc : 0 < (divOutN (val i.digits) (val num.digits)).2
        · rw [if_pos hc, if_pos hc, List.map_cons, u1]
        · rw [if_neg hc, if_neg hc, u1]
      · intro pk hpk
        by_cases hc : 0 < (divOutN (val i.digits) (val num.digits)).2
        · rw [d4, if_pos hc] at hpk
          rcases List.mem_cons.mp hpk with h | h
          · rw [h]
            exact ⟨hci, hfi⟩
          · exact u2 pk h
        · rw [d4, if_neg hc] at hpk
          exact u2 pk hpk
    · rw [if_neg hle]
      have hgt2 : ¬ (val i.digits ≤ val sq.digits) := by
        intro hc
        apply hle
        rw [leB_correct hci hcs, toInt_flag_false hfi, toInt_flag_false hfs]
        exact_mod_cast hc
      rw [oddPhase, if_neg hgt2]
      refine ⟨rfl, ?_, hcn, hfn, rfl⟩
      intro pk hpk
      cases hpk

/-- Full functional characterization of primeFactorization on inputs of
absolute value at least 2: the returned (factor, multiplicity) pairs are
canonical non-negative primes with positive multiplicities, their values
are strictly increasing, and the product of factor^multiplicity over the
list is the magnitude of the input. -/
theorem primeFactorizationB_facts {n : BigInt} (hc : Canonical n)
    (h2 : 2 ≤ val n.digits) :
    ((primeFactorizationB n).map
        (fun pk : BigInt × Nat => val pk.1.digits ^ pk.2)).prod =
        val n.digits ∧
      (∀ pk ∈ primeFactorizationB n, 0 < pk.2 ∧
        Nat.Prime (val pk.1.digits) ∧ Canonical pk.1 ∧
        pk.1.negative = false) ∧
      List.Pairwise (· < ·)
        ((primeFactorizationB n).map
          (fun pk : BigInt × Nat => val pk.1.digits)) := by
  obtain ⟨habd, habf, habc⟩ := absB_spec hc
  have hav : val (absB n).digits = val n.digits := by rw [habd]
  have hle : leB (absB n) oneB = false := by
    rw [← Bool.not_eq_true]
    intro hx
    have hy := (leB_correct habc oneB_canonical).mp hx
    rw [toInt_flag_false habf] at hy
    have h1 : oneB.toInt = 1 := rfl
    rw [h1] at hy
    have : val (absB n).digits ≤ 1 := by exact_mod_cast hy
    omega
  have hv2 : val twoB.digits = 2 := rfl
  have hv3 : val (fromLL 3).digits = 3 := rfl
  have hc3 : Canonical (fromLL 3) := by decide
  have hf3 : (fromLL 3).negative = false := rfl
  have hm : 0 < val (absB n).digits := by omega
  have hfuel2 : (divOutN (val twoB.digits) (val (absB n).digits)).2 <
      val (absB n).digits + 1 := by
    rw [hv2]
    exact divOutN_count_le (le_refl 2) hm
  obtain ⟨d1, d2f, d3, d4⟩ := divOutLoop_sim twoB_canonical rfl hv2.ge
    (val (absB n).digits + 1) (absB n) habc habf hm hfuel2
  have hdn : divOutN (val twoB.digits) (val (absB n).digits) =
      divOutN 2 (val n.digits) := by rw [hv2, hav]
  rw [hdn] at d3 d4
  obtain ⟨e1, e2, e3⟩ := divOutN_spec 2 (le_refl 2) (val n.digits) (by omega)
  obtain ⟨s1, s2, s3, s4⟩ := sqrtCore_spec d1 d2f
  rw [d3] at s3 s4
  have hpos3 : 0 < val (divOutLoop twoB (val (absB n).digits + 1) (absB n)).1.digits := by
    rw [d3]
    exact e3
  have hfuel3 : val (sqrtCore (divOutLoop twoB (val (absB n).digits + 1) (absB n)).1).digits + 1 - val (fromLL 3).digits ≤
      2 * (val (sqrtCore (divOutLoop twoB (val (absB n).digits + 1) (absB n)).1).digits + 2) := by
    rw [hv3]
    omega
  obtain ⟨o1, o2, o3, o4, o5⟩ := oddLoop_sim s1 s2
    (val (sqrtCore (divOutLoop twoB (val (absB n).digits + 1) (absB n)).1).digits + 2) (fromLL 3) (divOutLoop twoB (val (absB n).digits + 1) (absB n)).1 hc3 hf3 d1 d2f hpos3 hv3.ge hfuel3
  rw [hv3, d3] at o1 o5
  obtain ⟨f1, f2, f3⟩ := factorFacts h2 s3 s4
  have hL : primeFactorizationB n =
      (if (divOutLoop twoB (val (absB n).digits + 1) (absB n)).2 > 0 then [(twoB, (divOutLoop twoB (val (absB n).digits + 1) (absB n)).2)] else []) ++ (oddLoop (sqrtCore (divOutLoop twoB (val (absB n).digits + 1) (absB n)).1) (val (sqrtCore (divOutLoop twoB (val (absB n).digits + 1) (absB n)).1).digits + 2) (fromLL 3) (divOutLoop twoB (val (absB n).digits + 1) (absB n)).1).1 ++ (if gtB (oddLoop (sqrtCore (divOutLoop twoB (val (absB n).digits + 1) (absB n)).1) (val (sqrtCore (divOutLoop twoB (val (absB n).digits + 1) (absB n)).1).digits + 2) (fromLL 3) (divOutLoop twoB (val (absB n).digits + 1) (absB n)).1).2 oneB then [((oddLoop (sqrtCore (divOutLoop twoB (val (absB n).digits + 1) (absB n)).1) (val (sqrtCore (divOutLoop twoB (val (absB n).digits + 1) (absB n)).1).digits + 2) (fromLL 3) (divOutLoop twoB (val (absB n).digits + 1) (absB n)).1).2, 1)] else []) := by
    unfold primeFactorizationB
    rw [hle]
    rfl
  have hpart1 : List.map (fun pk : BigInt × Nat => (val pk.1.digits, pk.2))
      (if (divOutLoop twoB (val (absB n).digits + 1) (absB n)).2 > 0 then [(twoB, (divOutLoop twoB (val (absB n).digits + 1) (absB n)).2)] else []) = (if 0 < (divOutN 2 (val n.digits)).2 then [(2, (divOutN 2 (val n.digits)).2)] else []) := by
    by_cases hcx : 0 < (divOutN 2 (val n.digits)).2
    · rw [if_pos (show (divOutLoop twoB (val (absB n).digits + 1) (absB n)).2 > 0 by rw [d4]; exact hcx), if_pos hcx]
      simp only [List.map_cons, List.map_nil]
      rw [d4, hv2]
    · rw [if_neg (show ¬ (divOutLoop twoB (val (absB n).digits + 1) (absB n)).2 > 0 by rw [d4]; exact hcx), if_neg hcx]
      rfl
  have hpart3 : List.map (fun pk : BigInt × Nat => (val pk.1.digits, pk.2))
      (if gtB (oddLoop (sqrtCore (divOutLoop twoB (val (absB n).digits + 1) (absB n)).1) (val (sqrtCore (divOutLoop twoB (val (absB n).digits + 1) (absB n)).1).digits + 2) (fromLL 3) (divOutLoop twoB (val (absB n).digits + 1) (absB n)).1).2 oneB then [((oddLoop (sqrtCore (divOutLoop twoB (val (absB n).digits + 1) (absB n)).1) (val (sqrtCore (divOutLoop twoB (val (absB n).digits + 1) (absB n)).1).digits + 2) (fromLL 3) (divOutLoop twoB (val (absB n).digits + 1) (absB n)).1).2, 1)] else []) = (if 1 < (oddPhase (val (sqrtCore (divOutLoop twoB (val (absB n).digits + 1) (absB n)).1).digits) 3 (divOutN 2 (val n.digits)).1).2 then [((oddPhase (val (sqrtCore (divOutLoop twoB (val (absB n).digits + 1) (absB n)).1).digits) 3 (divOutN 2 (val n.digits)).1).2, 1)] else []) := by
    by_cases hcr : 1 < (oddPhase (val (sqrtCore (divOutLoop twoB (val (absB n).digits + 1) (absB n)).1).digits) 3 (divOutN 2 (val n.digits)).1).2
    · have hgb : gtB (oddLoop (sqrtCore (divOutLoop twoB (val (absB n).digits + 1) (absB n)).1) (val (sqrtCore (divOutLoop twoB (val (absB n).digits + 1) (absB n)).1).digits + 2) (fromLL 3) (divOutLoop twoB (val (absB n).digits + 1) (absB n)).1).2 oneB = true := by
        rw [gtB_correct o3 oneB_canonical, toInt_flag_false o4]
        have h1 : oneB.toInt = 1 := rfl
        rw [h1, o5]
        exact_mod_cast hcr
      rw [if_pos hgb, if_pos hcr]
      simp only [List.map_cons, List.map_nil]
      rw [o5]
    · have hgb : gtB (oddLoop (sqrtCore (divOutLoop twoB (val (absB n).digits + 1) (absB n)).1) (val (sqrtCore (divOutLoop twoB (val (absB n).digits + 1) (absB n)).1).digits + 2) (fromLL 3) (divOutLoop twoB (val (absB n).digits + 1) (absB n)).1).2 oneB = false := by
        rw [← Bool.not_eq_true]
        intro hx
        have hy := (gtB_correct o3 oneB_canonical).mp hx
        rw [toInt_flag_false o4] at hy
        have h1 : oneB.toInt = 1 := rfl
        rw [h1, o5] at hy
        exact hcr (by exact_mod_cast hy)
      rw [hgb, if_neg Bool.false_ne_true, if_neg hcr]
      rfl
  have hmap : List.map (fun pk : BigInt × Nat => (val pk.1.digits, pk.2))
      (primeFactorizationB n) = (if 0 < (divOutN 2 (val n.digits)).2 then [(2, (divOutN 2 (val n.digits)).2)] else []) ++ (oddPhase (val (sqrtCore (divOutLoop twoB (val (absB n).digits + 1) (absB n)).1).digits) 3 (divOutN 2 (val n.digits)).1).1 ++ (if 1 < (oddPhase (val (sqrtCore (divOutLoop twoB (val (absB n).digits + 1) (absB n)).1).digits) 3 (divOutN 2 (val n.digits)).1).2 then [((oddPhase (val (sqrtCore (divOutLoop twoB (val (absB n).digits + 1) (absB n)).1).digits) 3 (divOutN 2 (val n.digits)).1).2, 1)] else []) := by
    rw [hL, List.map_append, List.map_append, hpart1, o1, hpart3]
  have hBig : ∀ pk ∈ primeFactorizationB n,
      Canonical pk.1 ∧ pk.1.negative = false := by
    intro pk hpk
    rw [hL] at hpk
    rcases List.mem_append.mp hpk with h1 | h1
    · rcases List.mem_append.mp h1 with h2 | h2
      · by_cases hcx : (divOutLoop twoB (val (absB n).digits + 1) (absB n)).2 > 0
        · rw [if_pos hcx] at h2
          have := List.mem_singleton.mp h2
          rw [this]
          exact ⟨twoB_canonical, rfl⟩
        · rw [if_neg hcx] at h2
          cases h2
      · exact o2 pk h2
    · by_cases hcr : gtB (oddLoop (sqrtCore (divOutLoop twoB (val (absB n).digits + 1) (absB n)).1) (val (sqrtCore (divOutLoop twoB (val (absB n).digits + 1) (absB n)).1).digits + 2) (fromLL 3) (divOutLoop twoB (val (absB n).digits + 1) (absB n)).1).2 oneB = true
      · rw [if_pos hcr] at h1
        have := List.mem_singleton.mp h1
        rw [this]
        exact ⟨o3, o4⟩
      · rw [if_neg hcr] at h1
        cases h1
  refine ⟨?_, ?_, ?_⟩
  · show (List.map ((fun q : Nat × Nat => q.1 ^ q.2) ∘
        (fun pk : BigInt × Nat => (val pk.1.digits, pk.2)))
        (primeFactorizationB n)).prod = val n.digits
    rw [← List.map_map, hmap]
    exact f1
  · intro pk hpk
    have hmm : (val pk.1.digits, pk.2) ∈
        List.map (fun pk : BigInt × Nat => (val pk.1.digits, pk.2))
          (primeFactorizationB n) := List.mem_map_of_mem _ hpk
    rw [hmap] at hmm
    obtain ⟨hpos, hpr⟩ := f2 _ hmm
    exact ⟨hpos, hpr, (hBig pk hpk).1, (hBig pk hpk).2⟩
  · show List.Pairwise (· < ·) (List.map ((fun q : Nat × Nat => q.1) ∘
        (fun pk : BigInt × Nat => (val pk.1.digits, pk.2)))
        (primeFactorizationB n))
    rw [← List.map_map, hmap]
    exact f3

/-- C1 (amended): for canonical a and canonical nonzero b, division and
modulus succeed with (a / b) * b + (a % b) == a under the library's own
equality; a nonzero quotient's sign is the XOR of the operand signs (a
zero quotient is normalized to sign false, even when the operand signs
differ); and a nonzero remainder carries the dividend's sign. -/
theorem c1_division_truncating_exact {a b : BigInt} (ha : Canonical a)
    (hb : Canonical b) (hbz : isZeroB b = false) :
    divB a b = .ok (quotB a b) ∧ modB a b = .ok (remB a b) ∧
      beqB (addB (mulB (quotB a b) b) (remB a b)) a = true ∧
      ((quotB a b).digits ≠ [0] →
        (quotB a b).negative = decide (a.negative ≠ b.negative)) ∧
      ((remB a b).digits ≠ [0] → (remB a b).negative = a.negative) := by
  refine ⟨?_, ?_, divmod_identity ha hb hbz,
    (quotB_spec ha hb hbz).2.2, (remB_spec ha hb hbz).2.2⟩
  · unfold divB
    rw [hbz, if_neg Bool.false_ne_true]
  · unfold modB
    rw [hbz, if_neg Bool.false_ne_true]

theorem c1_division_witness :
    Canonical (fromLL 7) ∧ Canonical (fromLL (-2)) ∧
      isZeroB (fromLL (-2)) = false ∧
      beqB (addB (mulB (quotB (fromLL 7) (fromLL (-2))) (fromLL (-2)))
        (remB (fromLL 7) (fromLL (-2)))) (fromLL 7) = true :=
  ⟨by decide, by decide, by decide,
    (c1_division_truncating_exact (a := fromLL 7) (b := fromLL (-2))
      (by decide) (by decide) (by decide)).2.2.1⟩

/-- C1 counterexample to the unamended sign clause: the quotient of
1 / -2 is zero with sign false although the operand signs differ, so the
quotient's sign flag is not the XOR of the operand signs. -/
theorem c1_quotient_sign_counterexample :
    divB (fromLL 1) (fromLL (-2)) = .ok zeroB ∧
      (fromLL 1).negative ≠ (fromLL (-2)).negative ∧
      zeroB.negative = false := by decide

/-- C2: the round-trip claim fails on sign-free strings: parsing the
canonically formatted "123" runs the digit loop past index 0 (the size_t
index wraps) and reads out of bounds, while the signed string "-123"
parses and formats back unchanged. -/
theorem c2_unsigned_parse_out_of_bounds :
    parseB ('1' :: '2' :: '3' :: []) = .error .outOfBoundsRead ∧
      parseB ('-' :: '1' :: '2' :: '3' :: []) =
        .ok (BigInt.mk [3, 2, 1] true) ∧
      toStringB (BigInt.mk [3, 2, 1] true) =
        '-' :: '1' :: '2' :: '3' :: [] := by decide

/-- C3: unary negation does not re-normalize, so negating zero yields the
non-canonical value {digits [0], sign true}, violating the invariant that
zero always carries sign false; the damage is observable because
-0 == 0 then evaluates to false. -/
theorem c3_negate_zero_not_canonical :
    negB zeroB = BigInt.mk [0] true ∧ Canonical zeroB ∧
      ¬ Canonical (negB zeroB) ∧ beqB (negB zeroB) zeroB = false := by decide

/-- C4: the long long constructor negates after capturing the sign, which
overflows at LLONG_MIN: the result has an empty digit vector, value 0
rather than -2^63, and prints as the bare string "-"; the neighboring
value LLONG_MIN + 1 and the maximum LLONG_MAX convert exactly. -/
theorem c4_llong_min_corrupted :
    fromLL llongMin = BigInt.mk [] true ∧
      (fromLL llongMin).toInt = 0 ∧ (fromLL llongMin).toInt ≠ llongMin ∧
      toStringB (fromLL llongMin) = '-' :: [] ∧
      (fromLL (llongMin + 1)).toInt = llongMin + 1 ∧
      (fromLL llongMax).toInt = llongMax := by decide

/-- C5: the constructor rejects "", "abc", "-" and "+" with InvalidInput
as claimed, and accepts sign-prefixed digit strings, but the positive
half of the claim fails on digit strings without a sign character: "42"
matches the grammar yet the parse loop reads out of bounds instead of
succeeding. -/
theorem c5_parse_error_cases :
    parseB [] = .error .invalidInput ∧
      parseB ('a' :: 'b' :: 'c' :: []) = .error .invalidInput ∧
      parseB ('-' :: []) = .error .invalidInput ∧
      parseB ('+' :: []) = .error .invalidInput ∧
      parseB ('+' :: '4' :: '2' :: []) = .ok (BigInt.mk [2, 4] false) ∧
      parseB ('4' :: '2' :: []) = .error .outOfBoundsRead := by decide

/-- C6: dividing or taking the remainder by the zero value fails with
DivisionByZero for every dividend, and for every canonical divisor with
nonzero value both operators return a result and raise nothing. -/
theorem c6_division_by_zero (a : BigInt) {b : BigInt} (hb : Canonical b) :
    divB a zeroB = .error .divisionByZero ∧
      modB a zeroB = .error .divisionByZero ∧
      (b.toInt ≠ 0 →
        divB a b = .ok (quotB a b) ∧ modB a b = .ok (remB a b)) := by
  refine ⟨rfl, rfl, ?_⟩
  intro hbz
  have hz : isZeroB b = false := by
    cases hzz : isZeroB b with
    | false => rfl
    | true =>
      exfalso
      apply hbz
      rw [canonical_toInt_zero_iff hb]
      exact isZeroB_iff.mp hzz
  constructor
  · unfold divB
    rw [hz, if_neg Bool.false_ne_true]
  · unfold modB
    rw [hz, if_neg Bool.false_ne_true]

theorem c6_division_by_zero_witness :
    Canonical (fromLL 3) ∧ (fromLL 3).toInt ≠ 0 ∧
      divB (fromLL 5) zeroB = .error .divisionByZero ∧
      divB (fromLL 5) (fromLL 3) = .ok (quotB (fromLL 5) (fromLL 3)) :=
  ⟨by decide, by decide,
    (c6_division_by_zero (fromLL 5) (b := fromLL 3) (by decide)).1,
    ((c6_division_by_zero (fromLL 5) (b := fromLL 3) (by decide)).2.2
      (by decide)).1⟩

/-- C8: sqrt fails with InvalidInput exactly on negative inputs; on every
canonical non-negative input it returns the integer floor square root r
with r*r ≤ n < (r+1)*(r+1); and sqrt(100) = 10, sqrt(99) = 9. -/
theorem c8_sqrt_floor {n : BigInt} (hc : Canonical n) :
    (n.toInt < 0 → sqrtB n = .error .invalidInput) ∧
      (0 ≤ n.toInt → ∃ r, sqrtB n = .ok r ∧ Canonical r ∧
        r.toInt * r.toInt ≤ n.toInt ∧
        n.toInt < (r.toInt + 1) * (r.toInt + 1)) ∧
      sqrtB (fromLL 100) = .ok (fromLL 10) ∧
      sqrtB (fromLL 99) = .ok (fromLL 9) :=
  ⟨(sqrtB_spec hc).1, (sqrtB_spec hc).2, by decide, by decide⟩

theorem c8_sqrt_floor_witness :
    Canonical (fromLL 99) ∧
      (0 ≤ (fromLL 99).toInt → ∃ r, sqrtB (fromLL 99) = .ok r ∧
        Canonical r ∧ r.toInt * r.toInt ≤ (fromLL 99).toInt ∧
        (fromLL 99).toInt < (r.toInt + 1) * (r.toInt + 1)) :=
  ⟨by decide, (c8_sqrt_floor (n := fromLL 99) (by decide)).2.1⟩

/-- C9: for every canonical n of absolute value at least 2,
primeFactorization returns (factor, multiplicity) pairs with positive
multiplicities and prime factor values in strictly ascending order — so 2
(when present) comes first, the odd trial factors follow in ascending
order, and the residual cofactor is last — whose product of
factor^multiplicity equals |n|; and primeFactorization(360) =
[(2, 3), (3, 2), (5, 1)]. -/
theorem c9_prime_factorization {n : BigInt} (hc : Canonical n)
    (h2 : 2 ≤ val (absB n).digits) :
    ((primeFactorizationB n).map
        (fun pk : BigInt × Nat => val pk.1.digits ^ pk.2)).prod =
        val (absB n).digits ∧
      (∀ pk ∈ primeFactorizationB n,
        0 < pk.2 ∧ Nat.Prime (val pk.1.digits)) ∧
      List.Pairwise (· < ·)
        ((primeFactorizationB n).map
          (fun pk : BigInt × Nat => val pk.1.digits)) ∧
      primeFactorizationB (fromLL 360) =
        [(twoB, 3), (fromLL 3, 2), (fromLL 5, 1)] := by
  have hav : val (absB n).digits = val n.digits := by
    rw [(absB_spec hc).1]
  rw [hav] at h2 ⊢
  obtain ⟨p1, p2, p3⟩ := primeFactorizationB_facts hc h2
  refine ⟨p1, ?_, p3, by decide⟩
  intro pk hpk
  obtain ⟨q1, q2, _, _⟩ := p2 pk hpk
  exact ⟨q1, q2⟩

theorem c9_prime_factorization_witness :
    Canonical (fromLL 360) ∧ 2 ≤ val (absB (fromLL 360)).digits ∧
      ((primeFactorizationB (fromLL 360)).map
        (fun pk : BigInt × Nat => val pk.1.digits ^ pk.2)).prod =
        val (absB (fromLL 360)).digits :=
  ⟨by decide, by decide,
    (c9_prime_factorization (n := fromLL 360) (by decide) (by decide)).1⟩

/-- C7: the range check compares against the corrupted
BigInt(LLONG_MIN), below which every negative value compares, so
toLongLong rejects all negative inputs with OutOfRange — including
in-range ones such as -1 — while non-negative in-range values convert
exactly; at the minimum endpoint itself the comparison passes and the
wrong value 0 is returned instead of -2^63. -/
theorem c7_toLongLong_negative_rejected :
    toLongLong (fromLL (-1)) = .error .outOfRange ∧
      toLongLong (fromLL 123) = .ok 123 ∧
      toLongLong (fromLL llongMax) = .ok llongMax ∧
      toLongLong (fromLL llongMin) = .ok 0 := by decide

/-- C10: pow answers a zero exponent with ONE before any multiplication,
for every base including zero, and the power operator delegates to pow,
so b ^ 0 == 1 for every b. -/
theorem c10_pow_zero_exponent (b : BigInt) :
    powB b zeroB = .ok oneB ∧ hatB b zeroB = .ok oneB := ⟨rfl, rfl⟩
